import Mathlib

/-!
Verification development for the flatten/unflatten transformation engine of
JSON-Tools-rs.  The repository ships the Python binding surface, examples and
tests; the core engine (path codec, filter pipeline, replacement engine, case
normalizer, batch runner) lives in the Rust crate that is not part of the
source tree here, so the engine is modelled from the specification, with the
operation orderings pinned by the repository's own test suite wherever the
tests decide them.

Strings are modelled as `List Char` so that every operation is executable and
every concrete claim can be settled by kernel reduction.
-/

/-- Character-list strings used throughout the embedding. -/
abbrev Str := List Char

/-! Tree model.

Modelled from the spec: §3 TreeValue — the tagged variant
{Null, Bool, Number, String, Array, Object} that the engine operates on;
objects are ordered key/value sequences (first-insertion order preserved),
which is the iteration order the flattened output exposes. -/

inductive JsonValue where
  | null
  | bool (b : Bool)
  | num (n : Int)
  | str (s : Str)
  | arr (xs : List JsonValue)
  | obj (kvs : List (Str × JsonValue))
deriving Repr

namespace JsonValue

mutual
/-- Boolean equality on trees (structural). -/
def beq : JsonValue → JsonValue → Bool
  | .null, .null => true
  | .bool a, .bool b => a == b
  | .num a, .num b => a == b
  | .str a, .str b => a == b
  | .arr a, .arr b => beqList a b
  | .obj a, .obj b => beqObj a b
  | _, _ => false

/-- Boolean equality on element lists. -/
def beqList : List JsonValue → List JsonValue → Bool
  | [], [] => true
  | a :: as, b :: bs => beq a b && beqList as bs
  | _, _ => false

/-- Boolean equality on key/value entry lists. -/
def beqObj : List (Str × JsonValue) → List (Str × JsonValue) → Bool
  | [], [] => true
  | (k, v) :: as, (k2, v2) :: bs => k == k2 && beq v v2 && beqObj as bs
  | _, _ => false
end

mutual
theorem beq_iff : ∀ a b : JsonValue, beq a b = true ↔ a = b
  | .null, b => by cases b <;> simp [beq]
  | .bool a, b => by cases b <;> simp [beq]
  | .num a, b => by cases b <;> simp [beq]
  | .str a, b => by cases b <;> simp [beq]
  | .arr a, b => by
      cases b <;> simp [beq]
      exact beqList_iff a _
  | .obj a, b => by
      cases b <;> simp [beq]
      exact beqObj_iff a _

theorem beqList_iff : ∀ a b : List JsonValue, beqList a b = true ↔ a = b
  | [], b => by cases b <;> simp [beqList]
  | a :: as, b => by
      cases b with
      | nil => simp [beqList]
      | cons x xs =>
        simp only [beqList, Bool.and_eq_true, List.cons.injEq]
        rw [beq_iff, beqList_iff]

theorem beqObj_iff : ∀ a b : List (Str × JsonValue), beqObj a b = true ↔ a = b
  | [], b => by cases b <;> simp [beqObj]
  | (k, v) :: as, b => by
      cases b with
      | nil => simp [beqObj]
      | cons x xs =>
        obtain ⟨k2, v2⟩ := x
        simp only [beqObj, Bool.and_eq_true, List.cons.injEq, Prod.mk.injEq]
        rw [beq_iff, beqObj_iff, beq_iff_eq]
end

instance : DecidableEq JsonValue := fun a b =>
  decidable_of_iff (beq a b = true) (beq_iff a b)

end JsonValue

/-! String utilities over character-list strings. -/

/-- Decimal digit character for `n < 10`. -/
def digitChar (n : Nat) : Char := Char.ofNat (48 + n)

/-- Least-significant-first decimal digits of `n`, with explicit fuel so the
definition is structural (`fuel ≥ n` makes the fuel irrelevant). -/
def digitsRevGo : Nat → Nat → List Nat
  | _, 0 => []
  | 0, _ + 1 => []
  | f + 1, n + 1 => (n + 1) % 10 :: digitsRevGo f ((n + 1) / 10)

/-- Canonical decimal representation of a natural number
(no leading zeros; `natToStr 0 = "0"`), as used for array index path
segments by the path codec. -/
def natToStr (n : Nat) : Str :=
  if n = 0 then ['0'] else ((digitsRevGo n n).reverse).map digitChar

/-- Parse a digit string as a natural number (digits assumed). -/
def strToNat (s : Str) : Nat :=
  s.foldl (fun a ch => 10 * a + (ch.toNat - 48)) 0

/-- Modelled from the spec: §4.2 of the unflattener — a path segment is
treated as an array index exactly when it matches `0 | [1-9][0-9]*`. -/
def isCanonicalIndex : Str → Bool
  | [] => false
  | c :: cs => if c = '0' then cs.isEmpty else c.isDigit && cs.all (·.isDigit)

/-- Split a string on every occurrence of a single character (no escaping). -/
def splitOnChar (c : Char) : Str → List Str
  | [] => [[]]
  | x :: xs =>
    match splitOnChar c xs with
    | [] => [[x]]
    | s :: rest => if x = c then [] :: s :: rest else (x :: s) :: rest

/-- Fueled worker for `splitOnStr`; each step consumes at least one
character, so `fuel ≥ s.length` makes the fuel irrelevant. -/
def splitOnStrGo : Nat → Str → Str → List Str
  | 0, _, s => [s]
  | f + 1, sep, s =>
    match s with
    | [] => [[]]
    | x :: xs =>
      if sep.isPrefixOf s then
        match splitOnStrGo f sep (s.drop sep.length) with
        | [] => [[]]
        | r => [] :: r
      else
        match splitOnStrGo f sep xs with
        | [] => [[x]]
        | h :: t => (x :: h) :: t

/-- Split a string on every occurrence of a separator substring
(simple leftmost non-overlapping scan, no escaping), as the unflattener's
key splitting does. -/
def splitOnStr (sep : Str) (s : Str) : List Str :=
  if sep = [] then [s] else splitOnStrGo s.length sep s

/-- Join segments with a single separator character. -/
def joinChar (c : Char) : List Str → Str
  | [] => []
  | [s] => s
  | s :: rest => s ++ c :: joinChar c rest

/-- Fueled worker for `replaceSub`; consumes at least one character per
step when the needle is nonempty. -/
def replaceSubGo : Nat → Str → Str → Str → Str
  | 0, _, _, s => s
  | f + 1, needle, rep, s =>
    match s with
    | [] => []
    | x :: xs =>
      if needle.isPrefixOf s then rep ++ replaceSubGo f needle rep (s.drop needle.length)
      else x :: replaceSubGo f needle rep xs

/-- Replace every non-overlapping occurrence of `needle` by `rep`,
scanning left to right (the literal-matcher semantics of the
Replacement Engine). An empty needle leaves the string unchanged. -/
def replaceSub (needle rep s : Str) : Str :=
  if needle = [] then s else replaceSubGo s.length needle rep s

/-- Lowercase every character of a key (the Case Normalizer). -/
def lowerStr (s : Str) : Str := s.map Char.toLower

/-! Regex collaborator.

Modelled from the spec: §1/§4.3 — the regular-expression engine is an
external collaborator ("compiled pattern matching with capture-group
substitution") whose code is not in the source tree.  It is modelled on the
fragment the engine's configurations exercise: literal characters,
backslash escapes, anchors `^`/`$`, and one level of capturing groups with
alternation.  Unsupported constructs (unterminated classes, leading
quantifiers, ...) fail to compile, which is the `PatternError` surface. -/

/-- An atomic regex unit: a literal character or an anchor. -/
inductive RUnit where
  | ch (c : Char)
  | bol
  | eol
deriving DecidableEq, Repr

/-- A regex element: a unit, or a capturing group of alternative
unit-sequences. -/
inductive RElem where
  | unit (u : RUnit)
  | group (alts : List (List RUnit))
deriving DecidableEq, Repr

/-- Parse the body of a group up to its closing parenthesis, splitting
top-level `|` into alternatives; returns the alternatives and the rest of
the pattern.  `none` on unsupported or unterminated syntax. -/
def parseGroupBody : Str → List RUnit → List (List RUnit) → Option (List (List RUnit) × Str)
  | [], _, _ => none
  | x :: xs, cur, acc =>
    match x with
    | ')' => some (acc ++ [cur.reverse], xs)
    | '|' => parseGroupBody xs [] (acc ++ [cur.reverse])
    | '\\' =>
      match xs with
      | [] => none
      | e :: rest => parseGroupBody rest (.ch e :: cur) acc
    | '^' => parseGroupBody xs (.bol :: cur) acc
    | '$' => parseGroupBody xs (.eol :: cur) acc
    | '(' => none
    | '[' => none
    | '*' => none
    | '+' => none
    | '?' => none
    | c => parseGroupBody xs (.ch c :: cur) acc

/-- Fueled worker for `parseRegex`; every step consumes at least one
character, so `fuel ≥ pattern.length` makes the fuel irrelevant. -/
def parseRegexGo : Nat → Str → Option (List RElem)
  | _, [] => some []
  | 0, _ :: _ => none
  | f + 1, x :: xs =>
    match x with
    | '\\' =>
      match xs with
      | [] => none
      | e :: rest => (parseRegexGo f rest).map (fun es => .unit (.ch e) :: es)
    | '^' => (parseRegexGo f xs).map (fun es => .unit .bol :: es)
    | '$' => (parseRegexGo f xs).map (fun es => .unit .eol :: es)
    | '(' =>
      match parseGroupBody xs [] [] with
      | none => none
      | some (alts, rest) => (parseRegexGo f rest).map (fun es => .group alts :: es)
    | ')' => none
    | '[' => none
    | ']' => none
    | '*' => none
    | '+' => none
    | '?' => none
    | '|' => none
    | c => (parseRegexGo f xs).map (fun es => .unit (.ch c) :: es)

/-- Parse a whole pattern into a sequence of regex elements; `none` marks a
malformed pattern (a `PatternError` at compile time). -/
def parseRegex (pat : Str) : Option (List RElem) :=
  parseRegexGo pat.length pat

/-- Match a sequence of units at position `pos` of the remaining input;
returns the rest of the input, the new position and the consumed text. -/
def matchUnits : List RUnit → Str → Nat → Option (Str × Nat × Str)
  | [], s, pos => some (s, pos, [])
  | .ch c :: us, s, pos =>
    match s with
    | [] => none
    | x :: xs =>
      if x = c then (matchUnits us xs (pos + 1)).map (fun r => (r.1, r.2.1, c :: r.2.2))
      else none
  | .bol :: us, s, pos => if pos = 0 then matchUnits us s pos else none
  | .eol :: us, s, pos => if s.isEmpty then matchUnits us s pos else none

mutual
/-- Match a sequence of elements at position `pos`, collecting group
captures in order; the fuel only bounds the recursion and is irrelevant
once it exceeds the pattern size. -/
def matchElemsGo : Nat → List RElem → Str → Nat → Option (Str × Nat × List Str)
  | 0, _, _, _ => none
  | _ + 1, [], s, pos => some (s, pos, [])
  | f + 1, .unit u :: es, s, pos =>
    match matchUnits [u] s pos with
    | none => none
    | some (s', p', _) => matchElemsGo f es s' p'
  | f + 1, .group alts :: es, s, pos => tryAltsGo f alts es s pos

/-- Try a group's alternatives left to right, backtracking into the next
alternative when the rest of the pattern fails. -/
def tryAltsGo : Nat → List (List RUnit) → List RElem → Str → Nat → Option (Str × Nat × List Str)
  | 0, _, _, _, _ => none
  | _ + 1, [], _, _, _ => none
  | f + 1, a :: alts, es, s, pos =>
    match matchUnits a s pos with
    | none => tryAltsGo f alts es s pos
    | some (s', p', cap) =>
      match matchElemsGo f es s' p' with
      | some (s'', p'', caps) => some (s'', p'', cap :: caps)
      | none => tryAltsGo f alts es s pos
end

/-- Fuel that always suffices for `matchElemsGo` on a compiled pattern. -/
def regexFuel (es : List RElem) : Nat :=
  es.foldl (fun a e => a + 1 + (match e with | .group alts => alts.length | _ => 0)) 1

/-- Expand a replacement template, substituting `$N` by the N-th capture. -/
def expandTemplate : Str → List Str → Str
  | [], _ => []
  | '$' :: d :: rest, caps =>
    if d.isDigit then (caps.getD (d.toNat - 49) []) ++ expandTemplate rest caps
    else '$' :: d :: expandTemplate rest caps
  | x :: rest, caps => x :: expandTemplate rest caps

/-- Fueled left-to-right replace-all scan: at each position try the whole
pattern; on a match, emit the expanded template and continue after the
match (zero-width matches advance one character). -/
def reReplaceAllGo : Nat → List RElem → Str → Str → Nat → Str
  | 0, _, _, s, _ => s
  | f + 1, es, tmpl, s, pos =>
    match matchElemsGo (regexFuel es) es s pos with
    | some (s', p', caps) =>
      if p' = pos then
        expandTemplate tmpl caps ++
          (match s with
           | [] => []
           | x :: xs => x :: reReplaceAllGo f es tmpl xs (pos + 1))
      else expandTemplate tmpl caps ++ reReplaceAllGo f es tmpl s' p'
    | none =>
      match s with
      | [] => []
      | x :: xs => x :: reReplaceAllGo f es tmpl xs (pos + 1)

/-- Replace every match of a compiled pattern in `s` by the expanded
template (the regex-matcher semantics of the Replacement Engine). -/
def reReplaceAll (es : List RElem) (tmpl s : Str) : Str :=
  reReplaceAllGo (s.length + 1) es tmpl s 0

/-! Errors, matchers, configuration. -/

/-- Modelled from the spec: §7 error kinds of the engine (the core's own
error enum is not in the source tree). -/
inductive JsonToolsError where
  | parseError (text : Str)
  | invalidInputType
  | patternError (pattern : Str)
  | structuralConflict
  | invalidIndex
deriving DecidableEq, Repr

/-- A matcher at rest: the raw `(pattern, replacement)` pair as registered
on the builder.  A pattern starting with the marker `regex:` denotes a
regex matcher, anything else a literal matcher; nothing is compiled or
validated at registration time. -/
abbrev MatcherSpec := Str × Str

/-- A compiled matcher, produced at flatten/unflatten time. -/
inductive CompiledMatcher where
  | lit (needle rep : Str)
  | regex (elems : List RElem) (tmpl : Str)
deriving DecidableEq, Repr

/-- The regex marker prefix. -/
def regexMarker : Str := 'r' :: 'e' :: 'g' :: 'e' :: 'x' :: ':' :: []

/-- Compile one matcher spec; a malformed regex pattern surfaces here as a
`PatternError` (lazy compilation at use time, per source behavior). -/
def compileMatcher (m : MatcherSpec) : Except JsonToolsError CompiledMatcher :=
  if regexMarker.isPrefixOf m.1 then
    match parseRegex (m.1.drop 6) with
    | some es => .ok (.regex es m.2)
    | none => .error (.patternError m.1)
  else .ok (.lit m.1 m.2)

/-- Compile an ordered matcher list, aborting on the first bad pattern. -/
def compileMatchers : List MatcherSpec → Except JsonToolsError (List CompiledMatcher)
  | [] => .ok []
  | m :: ms => do
    let c ← compileMatcher m
    let cs ← compileMatchers ms
    .ok (c :: cs)

/-- Apply one compiled matcher to a candidate string. -/
def applyCompiled (cm : CompiledMatcher) (s : Str) : Str :=
  match cm with
  | .lit needle rep => replaceSub needle rep s
  | .regex es tmpl => reReplaceAll es tmpl s

/-- Apply an ordered matcher list left to right, cumulatively and without
short-circuiting (Replacement Engine). -/
def applyAll (cms : List CompiledMatcher) (s : Str) : Str :=
  cms.foldl (fun acc cm => applyCompiled cm acc) s

/-- Modelled from the spec: §3 Config — the immutable snapshot of
separator, the four filter flags, the case flag and the two ordered
matcher lists (the core's config struct is not in the source tree). -/
structure Config where
  separator : Str := ['.']
  removeEmptyStringValues : Bool := false
  removeNullValues : Bool := false
  removeEmptyDict : Bool := false
  removeEmptyList : Bool := false
  lowercaseKeys : Bool := false
  keyMatchers : List MatcherSpec := []
  valueMatchers : List MatcherSpec := []
deriving DecidableEq, Repr

namespace Config

/-- Builder setter `separator(s)`. -/
def withSeparator (cfg : Config) (s : Str) : Config := { cfg with separator := s }

/-- Builder setter `remove_empty_strings(b)`. -/
def removeEmptyStrings (cfg : Config) (b : Bool) : Config :=
  { cfg with removeEmptyStringValues := b }

/-- Builder setter `remove_nulls(b)`. -/
def removeNulls (cfg : Config) (b : Bool) : Config := { cfg with removeNullValues := b }

/-- Builder setter `remove_empty_objects(b)`. -/
def removeEmptyObjects (cfg : Config) (b : Bool) : Config := { cfg with removeEmptyDict := b }

/-- Builder setter `remove_empty_arrays(b)`. -/
def removeEmptyArrays (cfg : Config) (b : Bool) : Config := { cfg with removeEmptyList := b }

/-- Builder setter `lowercase_keys(b)`. -/
def withLowercaseKeys (cfg : Config) (b : Bool) : Config := { cfg with lowercaseKeys := b }

/-- Builder call `key_replacement(pattern, replacement)`: appends a matcher
spec, never validating the pattern (registration always succeeds). -/
def keyReplacement (cfg : Config) (pat rep : Str) : Config :=
  { cfg with keyMatchers := cfg.keyMatchers ++ [(pat, rep)] }

/-- Builder call `value_replacement(pattern, replacement)`: appends a
matcher spec, never validating the pattern. -/
def valueReplacement (cfg : Config) (pat rep : Str) : Config :=
  { cfg with valueMatchers := cfg.valueMatchers ++ [(pat, rep)] }

end Config

/-! Path codec, flatten direction.

Modelled from the spec: §4.1/§4.2 flatten with the inline Filter
Pipeline — depth-first walk emitting `(path, leaf)` pairs, path segments
joined as the walk descends, empty containers contributing no entries.
Two orderings the spec leaves to the engine are pinned by the repository's
tests: path segments are joined with the default `"."` during the walk and
the configured separator replaces `"."` only after key replacement and
case normalization (`tests.py` `test_log_processing` and
`test_data_transformation_pipeline` rely on `"."`-written key matchers
taking effect under a custom separator), and in the unflatten direction
lowercasing precedes the key matchers
(`test_unflattener.py` `test_chained_configuration`). -/

/-- Should a leaf be dropped by the string/null filter rules? -/
def dropLeaf (cfg : Config) : JsonValue → Bool
  | .null => cfg.removeNullValues
  | .str s => cfg.removeEmptyStringValues && s.isEmpty
  | _ => false

mutual
/-- Depth-first flatten walk.  `p` is the dot-joined path so far; a child
key extends it as `p ++ "." ++ k`, except at the root where the prefix is
empty and the key is used directly. -/
def flattenWalk (cfg : Config) : JsonValue → Str → List (Str × JsonValue)
  | .arr xs, p => flattenWalkArr cfg xs p 0
  | .obj kvs, p => flattenWalkObj cfg kvs p
  | v, p => if dropLeaf cfg v then [] else [(p, v)]

/-- Flatten walk over array elements, appending decimal index segments. -/
def flattenWalkArr (cfg : Config) : List JsonValue → Str → Nat → List (Str × JsonValue)
  | [], _, _ => []
  | x :: xs, p, i =>
    flattenWalk cfg x (if p.isEmpty then natToStr i else p ++ '.' :: natToStr i) ++
      flattenWalkArr cfg xs p (i + 1)

/-- Flatten walk over object entries, appending key segments. -/
def flattenWalkObj (cfg : Config) : List (Str × JsonValue) → Str → List (Str × JsonValue)
  | [], _ => []
  | (k, v) :: rest, p =>
    flattenWalk cfg v (if p.isEmpty then k else p ++ '.' :: k) ++ flattenWalkObj cfg rest p
end

/-- Substitute the configured separator for the default `"."` in a final
key (identity for the default separator). -/
def applySeparator (sep k : Str) : Str :=
  if sep = ['.'] then k else replaceSub ['.'] sep k

/-- Key-side transform of the flatten pipeline: ordered key matchers on the
dot-joined key, then lowercasing, then separator substitution. -/
def flattenKeyTransform (cfg : Config) (kms : List CompiledMatcher) (k : Str) : Str :=
  applySeparator cfg.separator
    (if cfg.lowercaseKeys then lowerStr (applyAll kms k) else applyAll kms k)

/-- Value-side transform: value matchers touch only String leaves. -/
def valueTransform (vms : List CompiledMatcher) : JsonValue → JsonValue
  | .str s => .str (applyAll vms s)
  | v => v

/-- Replace the value at `k` in place (first occurrence). -/
def updateAssoc (k : Str) (v : JsonValue) : List (Str × JsonValue) → List (Str × JsonValue)
  | [] => []
  | (k', v') :: rest => if k' = k then (k, v) :: rest else (k', v') :: updateAssoc k v rest

/-- Does the entry list contain the key? -/
def containsKey (k : Str) (l : List (Str × JsonValue)) : Bool :=
  l.any (fun e => e.1 = k)

/-- Insertion-order map write: a later-produced entry overwrites the value
of an earlier one, keeping the first-insertion position. -/
def putEntry (acc : List (Str × JsonValue)) (k : Str) (v : JsonValue) : List (Str × JsonValue) :=
  if containsKey k acc then updateAssoc k v acc else acc ++ [(k, v)]

/-- Collapse a produced entry sequence into insertion-order map entries. -/
def dedupeEntries (l : List (Str × JsonValue)) : List (Str × JsonValue) :=
  l.foldl (fun acc e => putEntry acc e.1 e.2) []

/-- Flatten one tree under a configuration: compile the matchers (lazy
compilation at flatten time), walk the tree with inline filtering, apply
the key pipeline (matchers → case → separator) and the value matchers, and
collapse into a flat object.  A root-level scalar is returned unchanged. -/
def flattenValue (cfg : Config) (t : JsonValue) : Except JsonToolsError JsonValue := do
  let kms ← compileMatchers cfg.keyMatchers
  let vms ← compileMatchers cfg.valueMatchers
  match t with
  | .obj _ | .arr _ =>
    let entries := (flattenWalk cfg t []).map
      (fun e => (flattenKeyTransform cfg kms e.1, valueTransform vms e.2))
    .ok (.obj (dedupeEntries entries))
  | v => .ok v

/-! Path codec, unflatten direction. -/

/-- Insert one split path with its leaf into a partially built tree
(`none` = nothing built at this node yet).  A canonical-integer segment
requires an Array at this position, any other segment an Object;
conflicting requests are a structural-conflict error and a non-dense array
index is invalid input. -/
def insertAt : Option JsonValue → List Str → JsonValue → Except JsonToolsError JsonValue
  | cur, [], leaf =>
    match cur with
    | none => .ok leaf
    | some _ => .error .structuralConflict
  | cur, s :: rest, leaf =>
    if isCanonicalIndex s then
      let i := strToNat s
      match cur with
      | none =>
        if i = 0 then do
          let ch ← insertAt none rest leaf
          .ok (.arr [ch])
        else .error .invalidIndex
      | some (.arr xs) =>
        if h : i < xs.length then do
          let ch ← insertAt (some xs[i]) rest leaf
          .ok (.arr (xs.set i ch))
        else if i = xs.length then do
          let ch ← insertAt none rest leaf
          .ok (.arr (xs ++ [ch]))
        else .error .invalidIndex
      | some _ => .error .structuralConflict
    else
      match cur with
      | none => do
        let ch ← insertAt none rest leaf
        .ok (.obj [(s, ch)])
      | some (.obj kvs) =>
        match kvs.lookup s with
        | some child => do
          let ch ← insertAt (some child) rest leaf
          .ok (.obj (updateAssoc s ch kvs))
        | none => do
          let ch ← insertAt none rest leaf
          .ok (.obj (kvs ++ [(s, ch)]))
      | some _ => .error .structuralConflict

/-- Fold the split flat entries into a tree, in insertion order. -/
def foldInsert (cur : Option JsonValue) : List (List Str × JsonValue) → Except JsonToolsError (Option JsonValue)
  | [] => .ok cur
  | (p, leaf) :: rest => do
    let t ← insertAt cur p leaf
    foldInsert (some t) rest

/-- Key-side transform of the unflatten pipeline: the raw key is lowercased
first and the ordered key matchers are applied to the lowercased key
(ordering pinned by `test_unflattener.py` `test_chained_configuration`). -/
def unflattenKeyTransform (cfg : Config) (kms : List CompiledMatcher) (k : Str) : Str :=
  applyAll kms (if cfg.lowercaseKeys then lowerStr k else k)

/-- Unflatten one flat object under a configuration: compile the matchers,
transform each key, split it on the configured separator with no escaping,
apply value matchers to String leaves, and fold the paths into a tree.
A non-object input passes through unchanged (mirroring the root-scalar
behavior of flatten). -/
def unflattenValue (cfg : Config) (t : JsonValue) : Except JsonToolsError JsonValue := do
  let kms ← compileMatchers cfg.keyMatchers
  let vms ← compileMatchers cfg.valueMatchers
  match t with
  | .obj entries =>
    let processed := entries.map
      (fun e => (splitOnStr cfg.separator (unflattenKeyTransform cfg kms e.1),
                 valueTransform vms e.2))
    match ← foldInsert none processed with
    | some r => .ok r
    | none => .ok (.obj [])
  | v => .ok v

/-! Representation negotiator and batch runner.

Modelled from the spec: §4.5/§9 — the binding boundary resolves the
dynamic input once into tagged items; Text items go through the JSON text
codec (an external collaborator, passed in as `parse`/`render`), Native
items pass their tree straight through, and each result is re-wrapped in
its item's input representation.  The resolution rule for lists is pinned
by the tests: a list whose elements are all documents (Text or Native) is
a batch; a list with no Text element at all is treated as one root-level
Array document (`tests.py` `test_root_level_array`); any other list is an
input-type error. -/

/-- A document as supplied by the caller: JSON text, a native mapping, or
some other value (a bare number, boolean, null or list element). -/
inductive PyDoc where
  | text (s : Str)
  | dict (kvs : List (Str × JsonValue))
  | pyOther (v : JsonValue)
deriving DecidableEq, Repr

/-- A call's raw input: one document or an ordered list. -/
inductive PyInput where
  | one (d : PyDoc)
  | many (ds : List PyDoc)
deriving DecidableEq, Repr

/-- A per-item result, tagged with the representation it mirrors. -/
inductive OutDoc where
  | text (s : Str)
  | native (v : JsonValue)
deriving DecidableEq, Repr

/-- A call's result shape: Single or Multiple. -/
inductive Output where
  | single (o : OutDoc)
  | multiple (os : List OutDoc)
deriving DecidableEq, Repr

/-- Is the element a recognized document (Text or Native)? -/
def PyDoc.isDoc : PyDoc → Bool
  | .text _ => true
  | .dict _ => true
  | .pyOther _ => false

/-- Is the element supplied as JSON text? -/
def PyDoc.isText : PyDoc → Bool
  | .text _ => true
  | _ => false

/-- The tree a list element denotes when the list is read as one root-level
Array document. -/
def PyDoc.toTree : PyDoc → JsonValue
  | .text s => .str s
  | .dict kvs => .obj kvs
  | .pyOther v => v

/-- Does the result carry the Text representation? -/
def OutDoc.isText : OutDoc → Bool
  | .text _ => true
  | .native _ => false

/-- Process one document: decode Text via the codec (a failed decode is a
parse error), run the operation, re-encode in the input representation;
a non-document is an input-type error. -/
def processDoc (parse : Str → Option JsonValue) (render : JsonValue → Str)
    (op : Config → JsonValue → Except JsonToolsError JsonValue)
    (cfg : Config) : PyDoc → Except JsonToolsError OutDoc
  | .text s =>
    match parse s with
    | some v => (op cfg v).map (fun r => .text (render r))
    | none => .error (.parseError s)
  | .dict kvs => (op cfg (.obj kvs)).map .native
  | .pyOther _ => .error .invalidInputType

/-- Effectful map that aborts the whole batch on the first error. -/
def mapE (f : α → Except ε β) : List α → Except ε (List β)
  | [] => .ok []
  | a :: as => do
    let b ← f a
    let bs ← mapE f as
    .ok (b :: bs)

/-- The batch runner: resolve the raw input, dispatch every item through
the operation, and reassemble preserving shape and per-item
representation. -/
def runOp (parse : Str → Option JsonValue) (render : JsonValue → Str)
    (op : Config → JsonValue → Except JsonToolsError JsonValue)
    (cfg : Config) : PyInput → Except JsonToolsError Output
  | .one d => (processDoc parse render op cfg d).map .single
  | .many ds =>
    if ds.all PyDoc.isDoc then
      (mapE (processDoc parse render op cfg) ds).map .multiple
    else if ds.all (fun d => !d.isText) then
      (op cfg (.arr (ds.map PyDoc.toTree))).map (fun r => .single (.native r))
    else .error .invalidInputType

/-- Flatten entry point over raw inputs. -/
def runFlatten (parse : Str → Option JsonValue) (render : JsonValue → Str)
    (cfg : Config) (input : PyInput) : Except JsonToolsError Output :=
  runOp parse render flattenValue cfg input

/-- Unflatten entry point over raw inputs. -/
def runUnflatten (parse : Str → Option JsonValue) (render : JsonValue → Str)
    (cfg : Config) (input : PyInput) : Except JsonToolsError Output :=
  runOp parse render unflattenValue cfg input

/-! Auxiliary views and variant definitions used by the theorems. -/

instance {α : Type} [DecidableEq α] : DecidableEq (Except JsonToolsError α) := fun a b =>
  match a, b with
  | .ok x, .ok y => decidable_of_iff (x = y) (by simp)
  | .error e, .error f => decidable_of_iff (e = f) (by simp)
  | .ok _, .error _ => isFalse (by simp)
  | .error _, .ok _ => isFalse (by simp)

mutual
/-- Specification-side view of a tree as its list of `(path, leaf)` pairs,
paths as segment lists, depth first, no filtering. -/
def leavesOf : JsonValue → List (List Str × JsonValue)
  | .arr xs => leavesOfArr xs 0
  | .obj kvs => leavesOfObj kvs
  | v => [([], v)]

/-- Leaves of consecutive array elements, indices from `i`. -/
def leavesOfArr : List JsonValue → Nat → List (List Str × JsonValue)
  | [], _ => []
  | x :: xs, i =>
    (leavesOf x).map (fun e => (natToStr i :: e.1, e.2)) ++ leavesOfArr xs (i + 1)

/-- Leaves of object entries. -/
def leavesOfObj : List (Str × JsonValue) → List (List Str × JsonValue)
  | [] => []
  | (k, v) :: rest =>
    (leavesOf v).map (fun e => (k :: e.1, e.2)) ++ leavesOfObj rest
end

/-- The dot-joined key the flatten walk assigns to the path `segs` reached
from the accumulated prefix `p` (an empty prefix takes the next segment
verbatim, mirroring the walk's root handling). -/
def sKey (p : Str) : List Str → Str
  | [] => p
  | s :: rest => sKey (if p.isEmpty then s else p ++ '.' :: s) rest

/-- Are the keys of an entry list pairwise distinct? -/
def nodupKeys : List (Str × JsonValue) → Bool
  | [] => true
  | (k, _) :: rest => !containsKey k rest && nodupKeys rest

/-- An object key that survives the round trip: nonempty, not a canonical
array index, and containing neither the path-joining dot nor the
configured separator character. -/
def goodKey (c : Char) (k : Str) : Bool :=
  !k.isEmpty && !isCanonicalIndex k && !k.contains '.' && !k.contains c

mutual
/-- Trees for which flatten/unflatten is a round trip under a plain
configuration with single-character separator `c`: containers are
nonempty, object keys are pairwise distinct and `goodKey`. -/
def goodTree (c : Char) : JsonValue → Bool
  | .arr xs => !xs.isEmpty && goodTreeArr c xs
  | .obj kvs => !kvs.isEmpty && nodupKeys kvs && goodTreeObj c kvs
  | _ => true

/-- Goodness of all elements of an array. -/
def goodTreeArr (c : Char) : List JsonValue → Bool
  | [] => true
  | x :: xs => goodTree c x && goodTreeArr c xs

/-- Goodness of all entries of an object. -/
def goodTreeObj (c : Char) : List (Str × JsonValue) → Bool
  | [] => true
  | (k, v) :: rest => goodKey c k && goodTree c v && goodTreeObj c rest
end

/-- Insert many split paths into an already-built subtree
(`foldInsert` after its first entry). -/
def insertMany (t : JsonValue) : List (List Str × JsonValue) → Except JsonToolsError JsonValue
  | [] => .ok t
  | (p, leaf) :: rest => do
    let t' ← insertAt (some t) p leaf
    insertMany t' rest

/-- Build a subtree from a nonempty list of split paths: the first entry
creates the node, the rest are inserted into it. -/
def buildSub : List (List Str × JsonValue) → Except JsonToolsError JsonValue
  | [] => .error .invalidInputType
  | (p, leaf) :: rest => do
    let t ← insertAt none p leaf
    insertMany t rest

/-- The plain configuration of the round-trip claim: separator `c`, no
filtering, no matchers, lowercasing off. -/
def plainCfg (c : Char) : Config := { separator := [c] }

/-- Claim C2's reading of the unflatten key pipeline: key matchers applied
to the original-case key, lowercasing strictly afterwards.  Kept for
comparison with `unflattenKeyTransform`, which the repository's tests pin
to the opposite order. -/
def unflattenKeyTransformClaimOrder (cfg : Config) (kms : List CompiledMatcher) (k : Str) : Str :=
  if cfg.lowercaseKeys then lowerStr (applyAll kms k) else applyAll kms k

mutual
/-- Claim C3's reading of the flatten walk: path segments joined directly
with the configured separator as the walk descends.  Kept for comparison
with `flattenWalk`, which joins with the default dot and substitutes the
separator after key replacement. -/
def flattenWalkSep (cfg : Config) : JsonValue → Str → List (Str × JsonValue)
  | .arr xs, p => flattenWalkSepArr cfg xs p 0
  | .obj kvs, p => flattenWalkSepObj cfg kvs p
  | v, p => if dropLeaf cfg v then [] else [(p, v)]

/-- Separator-joined walk over array elements. -/
def flattenWalkSepArr (cfg : Config) : List JsonValue → Str → Nat → List (Str × JsonValue)
  | [], _, _ => []
  | x :: xs, p, i =>
    flattenWalkSep cfg x (if p.isEmpty then natToStr i else p ++ cfg.separator ++ natToStr i) ++
      flattenWalkSepArr cfg xs p (i + 1)

/-- Separator-joined walk over object entries. -/
def flattenWalkSepObj (cfg : Config) : List (Str × JsonValue) → Str → List (Str × JsonValue)
  | [], _ => []
  | (k, v) :: rest, p =>
    flattenWalkSep cfg v (if p.isEmpty then k else p ++ cfg.separator ++ k) ++
      flattenWalkSepObj cfg rest p
end

/-- Claim C3's reading of the whole flatten pipeline: key matchers applied
to the separator-joined key, then case normalization; no later separator
substitution.  Kept for comparison with `flattenValue`. -/
def flattenValueClaimOrder (cfg : Config) (t : JsonValue) : Except JsonToolsError JsonValue := do
  let kms ← compileMatchers cfg.keyMatchers
  let vms ← compileMatchers cfg.valueMatchers
  match t with
  | .obj _ | .arr _ =>
    let entries := (flattenWalkSep cfg t []).map
      (fun e => ((if cfg.lowercaseKeys then lowerStr (applyAll kms e.1) else applyAll kms e.1),
                 valueTransform vms e.2))
    .ok (.obj (dedupeEntries entries))
  | v => .ok v

/-- Convert a Lean string literal to the character-list representation. -/
def strL (s : String) : Str := s.toList

/-! Basic lemmas: empty matcher lists, splitting and joining. -/

theorem applyAll_nil (s : Str) : applyAll [] s = s := rfl

theorem valueTransform_nil : ∀ v, valueTransform [] v = v
  | .null => rfl
  | .bool _ => rfl
  | .num _ => rfl
  | .str _ => rfl
  | .arr _ => rfl
  | .obj _ => rfl

theorem splitOnChar_ne_nil (c : Char) : ∀ s : Str, splitOnChar c s ≠ []
  | [] => by simp [splitOnChar]
  | x :: xs => by
    simp only [splitOnChar]
    cases h : splitOnChar c xs with
    | nil => simp
    | cons s rest => dsimp only; split <;> simp

theorem splitOnChar_of_not_mem {c : Char} : ∀ {s : Str}, c ∉ s → splitOnChar c s = [s]
  | [], _ => rfl
  | x :: xs, h => by
    have hx : ¬x = c := by rintro rfl; exact h (List.mem_cons_self _ _)
    have ih := splitOnChar_of_not_mem (s := xs) (fun hm => h (List.mem_cons_of_mem _ hm))
    simp [splitOnChar, ih, hx]

theorem splitOnChar_append (c : Char) (t : Str) :
    ∀ s : Str, c ∉ s → splitOnChar c (s ++ c :: t) = s :: splitOnChar c t
  | [], _ => by
    simp only [List.nil_append, splitOnChar]
    cases h : splitOnChar c t with
    | nil => exact absurd h (splitOnChar_ne_nil c t)
    | cons s rest => simp
  | x :: xs, h => by
    have hx : ¬x = c := by rintro rfl; exact h (List.mem_cons_self _ _)
    have ih := splitOnChar_append c t xs (fun hm => h (List.mem_cons_of_mem _ hm))
    simp only [List.cons_append, splitOnChar, hx, if_false, List.append_eq]
    rw [ih]

theorem splitOnChar_joinChar (c : Char) :
    ∀ segs : List Str, segs ≠ [] → (∀ s ∈ segs, c ∉ s) →
      splitOnChar c (joinChar c segs) = segs
  | [], h, _ => absurd rfl h
  | [s], _, h => by
    simpa [joinChar] using splitOnChar_of_not_mem (h s (List.mem_singleton.mpr rfl))
  | s :: s2 :: rest, _, h => by
    have ih := splitOnChar_joinChar c (s2 :: rest) (by simp)
      (fun x hx => h x (List.mem_cons_of_mem _ hx))
    calc splitOnChar c (joinChar c (s :: s2 :: rest))
        = splitOnChar c (s ++ c :: joinChar c (s2 :: rest)) := rfl
      _ = s :: splitOnChar c (joinChar c (s2 :: rest)) :=
          splitOnChar_append c _ s (h s (List.mem_cons_self _ _))
      _ = s :: s2 :: rest := by rw [ih]

theorem joinChar_injOn (c : Char) (p q : List Str) (hp : p ≠ []) (hq : q ≠ [])
    (hpc : ∀ s ∈ p, c ∉ s) (hqc : ∀ s ∈ q, c ∉ s)
    (h : joinChar c p = joinChar c q) : p = q := by
  have := splitOnChar_joinChar c p hp hpc
  rw [h, splitOnChar_joinChar c q hq hqc] at this
  exact this.symm

theorem replaceSubGo_dot (c : Char) :
    ∀ (f : Nat) (s : Str), s.length ≤ f →
      replaceSubGo f ['.'] [c] s = s.map (fun ch => if ch = '.' then c else ch)
  | f, [], _ => by cases f <;> simp [replaceSubGo]
  | 0, x :: xs, h => by simp at h
  | f + 1, x :: xs, h => by
    have ih := replaceSubGo_dot c f xs (by simpa using Nat.le_of_succ_le_succ h)
    by_cases hx : x = '.'
    · subst hx
      simp [replaceSubGo, List.isPrefixOf, ih]
    · simp only [replaceSubGo, List.isPrefixOf, List.map_cons]
      rw [ih]
      have hdx : ('.' == x) = false := beq_false_of_ne (fun hdx => hx hdx.symm)
      simp [hdx, hx]

theorem replaceSub_dot (c : Char) (s : Str) :
    replaceSub ['.'] [c] s = s.map (fun ch => if ch = '.' then c else ch) := by
  rw [replaceSub, if_neg (by simp)]
  exact replaceSubGo_dot c s.length s (le_refl _)

theorem map_joinChar (g : Char → Char) (c : Char) :
    ∀ segs : List Str, (joinChar c segs).map g = joinChar (g c) (segs.map (fun s => s.map g))
  | [] => rfl
  | [s] => rfl
  | s :: s2 :: rest => by
    have ih := map_joinChar g c (s2 :: rest)
    calc (joinChar c (s :: s2 :: rest)).map g
        = (s ++ c :: joinChar c (s2 :: rest)).map g := rfl
      _ = s.map g ++ g c :: (joinChar c (s2 :: rest)).map g := by simp
      _ = s.map g ++ g c :: joinChar (g c) ((s2 :: rest).map (fun s => s.map g)) := by rw [ih]
      _ = joinChar (g c) ((s :: s2 :: rest).map (fun s => s.map g)) := rfl

theorem applySeparator_joinDot (c : Char) (segs : List Str)
    (hsegs : ∀ s ∈ segs, '.' ∉ s) :
    applySeparator [c] (joinChar '.' segs) = joinChar c segs := by
  by_cases hc : c = '.'
  · subst hc; simp [applySeparator]
  · have hmap : ∀ s ∈ segs, s.map (fun ch => if ch = '.' then c else ch) = s := by
      intro s hs
      have : ∀ x ∈ s, (if x = '.' then c else x) = x := by
        intro x hx
        have : ¬x = '.' := by rintro rfl; exact hsegs s hs hx
        simp [this]
      simpa using List.map_congr_left this
    have hsep : ¬([c] = ['.'] : Prop) := by simp [hc]
    rw [applySeparator, if_neg hsep, replaceSub_dot, map_joinChar]
    simp only [if_pos rfl]
    congr 1
    calc segs.map (fun s => s.map (fun ch => if ch = '.' then c else ch))
        = segs.map id := List.map_congr_left (by intro s hs; simpa using hmap s hs)
      _ = segs := List.map_id segs

theorem splitOnStrGo_single (c : Char) :
    ∀ (f : Nat) (s : Str), s.length ≤ f → splitOnStrGo f [c] s = splitOnChar c s
  | f, [], _ => by cases f <;> simp [splitOnStrGo, splitOnChar]
  | 0, x :: xs, h => by simp at h
  | f + 1, x :: xs, h => by
    have ih := splitOnStrGo_single c f xs (by simpa using Nat.le_of_succ_le_succ h)
    by_cases hx : c = x
    · subst hx
      have hpre : ([c].isPrefixOf (c :: xs)) = true := by simp [List.isPrefixOf]
      simp only [splitOnStrGo, hpre, if_pos, List.length_cons, List.length_nil,
        List.drop_succ_cons, List.drop_zero, splitOnChar]
      cases hsp : splitOnChar c xs with
      | nil => exact absurd hsp (splitOnChar_ne_nil c xs)
      | cons s rest => rw [ih, hsp]
    · have hpre : ([c].isPrefixOf (x :: xs)) = false := by
        have hcx : (c == x) = false := beq_false_of_ne hx
        simp [List.isPrefixOf, hcx]
      simp only [splitOnStrGo, hpre, Bool.false_eq_true, if_false, ih, splitOnChar]
      cases hsp : splitOnChar c xs with
      | nil => exact absurd hsp (splitOnChar_ne_nil c xs)
      | cons s rest =>
        have hx2 : ¬x = c := fun hh => hx hh.symm
        simp [hx2]

theorem splitOnStr_single (c : Char) (s : Str) : splitOnStr [c] s = splitOnChar c s := by
  have : ¬([c] = [] : Prop) := by simp
  rw [splitOnStr, if_neg this, splitOnStrGo_single c s.length s (le_refl _)]

/-! Lemmas about canonical decimal index strings. -/

theorem digitsRevGo_eq : ∀ (f n : Nat), n ≤ f → digitsRevGo f n = Nat.digits 10 n
  | f, 0, _ => by cases f <;> simp [digitsRevGo]
  | 0, n + 1, h => by omega
  | f + 1, n + 1, h => by
    have hdiv : (n + 1) / 10 ≤ f := by
      have := Nat.div_lt_self (Nat.succ_pos n) (by norm_num : 1 < 10)
      omega
    rw [digitsRevGo, digitsRevGo_eq f ((n + 1) / 10) hdiv,
      Nat.digits_def' (by norm_num : 1 < 10) (Nat.succ_pos n)]

theorem digitsRevGo_lt_ten : ∀ (f n : Nat), ∀ d ∈ digitsRevGo f n, d < 10
  | f, 0 => by cases f <;> simp [digitsRevGo]
  | 0, n + 1 => by simp [digitsRevGo]
  | f + 1, n + 1 => by
    intro d hd
    rw [digitsRevGo] at hd
    rcases List.mem_cons.mp hd with h | h
    · subst h; exact Nat.mod_lt _ (by norm_num)
    · exact digitsRevGo_lt_ten f ((n + 1) / 10) d h

theorem digitsRevGo_concat : ∀ (f n : Nat), 0 < n → n ≤ f →
    ∃ ds d, digitsRevGo f n = ds ++ [d] ∧ d ≠ 0 ∧ d < 10
  | 0, n, hn, hf => by omega
  | f + 1, n + 1, _, hf => by
    by_cases hsmall : n + 1 < 10
    · refine ⟨[], (n + 1) % 10, ?_, ?_, Nat.mod_lt _ (by norm_num)⟩
      · rw [digitsRevGo]
        have hdiv : (n + 1) / 10 = 0 := Nat.div_eq_of_lt hsmall
        rw [hdiv]
        cases f <;> simp [digitsRevGo]
      · have := Nat.mod_eq_of_lt hsmall
        omega
    · have hpos : 0 < (n + 1) / 10 := Nat.div_pos (by omega) (by norm_num)
      have hle : (n + 1) / 10 ≤ f := by
        have := Nat.div_lt_self (Nat.succ_pos n) (by norm_num : 1 < 10)
        omega
      obtain ⟨ds, d, hds, hd0, hd10⟩ := digitsRevGo_concat f ((n + 1) / 10) hpos hle
      exact ⟨(n + 1) % 10 :: ds, d, by rw [digitsRevGo, hds]; rfl, hd0, hd10⟩

theorem digitChar_isDigit {d : Nat} (h : d < 10) : (digitChar d).isDigit = true := by
  interval_cases d <;> decide

theorem toNat_digitChar {d : Nat} (h : d < 10) : (digitChar d).toNat - 48 = d := by
  interval_cases d <;> decide

theorem digitChar_ne_zeroChar {d : Nat} (h0 : d ≠ 0) (h : d < 10) : ¬digitChar d = '0' := by
  interval_cases d <;> simp_all <;> decide

theorem dot_ne_digitChar {d : Nat} (h : d < 10) : ('.' : Char) ≠ digitChar d := by
  interval_cases d <;> decide

theorem strToNat_aux :
    ∀ (l : List Nat) (acc : Nat), (∀ d ∈ l, d < 10) →
      List.foldl (fun a ch => 10 * a + (ch.toNat - 48)) acc ((l.reverse).map digitChar) =
        acc * 10 ^ l.length + Nat.ofDigits 10 l
  | [], acc, _ => by simp [Nat.ofDigits]
  | d :: l, acc, h => by
    have hd : d < 10 := h d (List.mem_cons_self _ _)
    have ih := strToNat_aux l acc (fun x hx => h x (List.mem_cons_of_mem _ hx))
    rw [List.reverse_cons, List.map_append, List.foldl_append, ih]
    simp only [List.map_cons, List.map_nil, List.foldl_cons, List.foldl_nil,
      toNat_digitChar hd, Nat.ofDigits_cons, List.length_cons]
    ring

theorem strToNat_natToStr (n : Nat) : strToNat (natToStr n) = n := by
  by_cases hn : n = 0
  · subst hn; decide
  · rw [natToStr, if_neg hn, strToNat, digitsRevGo_eq n n (le_refl n),
      strToNat_aux (Nat.digits 10 n) 0
        (fun d hd => Nat.digits_lt_base (by norm_num) hd)]
    simp [Nat.ofDigits_digits]

theorem natToStr_injective {a b : Nat} (h : natToStr a = natToStr b) : a = b := by
  have := congrArg strToNat h
  rwa [strToNat_natToStr, strToNat_natToStr] at this

theorem natToStr_ne_nil (n : Nat) : natToStr n ≠ [] := by
  by_cases hn : n = 0
  · subst hn; decide
  · rw [natToStr, if_neg hn]
    obtain ⟨ds, d, hds, _, _⟩ := digitsRevGo_concat n n (Nat.pos_of_ne_zero hn) (le_refl n)
    rw [hds]
    simp

theorem mem_natToStr {x : Char} {n : Nat} (hx : x ∈ natToStr n) :
    ∃ d, d < 10 ∧ x = digitChar d := by
  by_cases hn : n = 0
  · subst hn
    have hx0 : x = '0' := by simpa [natToStr] using hx
    exact ⟨0, by norm_num, by rw [hx0]; rfl⟩
  · rw [natToStr, if_neg hn] at hx
    obtain ⟨d, hd, rfl⟩ := List.mem_map.mp hx
    exact ⟨d, digitsRevGo_lt_ten n n d (List.mem_reverse.mp hd), rfl⟩

theorem dot_not_mem_natToStr (n : Nat) : ('.' : Char) ∉ natToStr n := by
  intro hx
  obtain ⟨d, hd, hdx⟩ := mem_natToStr hx
  exact dot_ne_digitChar hd hdx

theorem not_mem_natToStr_of_not_digit {c : Char} (hc : c.isDigit = false) (n : Nat) :
    c ∉ natToStr n := by
  intro hx
  obtain ⟨d, hd, rfl⟩ := mem_natToStr hx
  rw [digitChar_isDigit hd] at hc
  exact Bool.noConfusion hc

theorem isCanonicalIndex_natToStr (n : Nat) : isCanonicalIndex (natToStr n) = true := by
  by_cases hn : n = 0
  · subst hn; decide
  · rw [natToStr, if_neg hn]
    obtain ⟨ds, d, hds, hd0, hd10⟩ :=
      digitsRevGo_concat n n (Nat.pos_of_ne_zero hn) (le_refl n)
    have hmem : ∀ e ∈ digitsRevGo n n, e < 10 := digitsRevGo_lt_ten n n
    rw [hds, List.reverse_append, List.reverse_singleton, List.singleton_append,
      List.map_cons]
    rw [isCanonicalIndex, if_neg (digitChar_ne_zeroChar hd0 hd10)]
    rw [digitChar_isDigit hd10]
    simp only [Bool.true_and, List.all_eq_true]
    intro x hxm
    obtain ⟨e, he, rfl⟩ := List.mem_map.mp hxm
    refine digitChar_isDigit (hmem e ?_)
    rw [hds]
    exact List.mem_append_left _ (List.mem_reverse.mp he)

/-! Correspondence between the flatten walk and the path view of a tree. -/

theorem sKey_nil (p : Str) : sKey p [] = p := rfl

theorem sKey_of_ne_nil :
    ∀ (segs : List Str) (p : Str), p ≠ [] →
      sKey p segs = p ++ segs.flatMap (fun s => '.' :: s)
  | [], p, _ => by simp [sKey]
  | s :: rest, p, hp => by
    have hne : p ++ '.' :: s ≠ [] := by simp
    have hpe : p.isEmpty = false := by
      cases p with
      | nil => exact absurd rfl hp
      | cons a l => rfl
    rw [sKey, if_neg (by simp [hpe]), sKey_of_ne_nil rest (p ++ '.' :: s) hne]
    simp

theorem joinChar_dot_eq :
    ∀ (s : Str) (rest : List Str),
      joinChar '.' (s :: rest) = s ++ rest.flatMap (fun x => '.' :: x)
  | s, [] => by simp [joinChar]
  | s, r :: rs => by
    have ih := joinChar_dot_eq r rs
    calc joinChar '.' (s :: r :: rs) = s ++ '.' :: joinChar '.' (r :: rs) := rfl
      _ = s ++ '.' :: (r ++ rs.flatMap (fun x => '.' :: x)) := by rw [ih]
      _ = s ++ (r :: rs).flatMap (fun x => '.' :: x) := by simp

theorem sKey_eq_joinChar (s : Str) (segs : List Str) (hs : s ≠ []) :
    sKey [] (s :: segs) = joinChar '.' (s :: segs) := by
  have h1 : sKey [] (s :: segs) = sKey s segs := rfl
  rw [h1, sKey_of_ne_nil segs s hs, joinChar_dot_eq]

mutual
theorem flattenWalk_eq (cfg : Config) : ∀ (v : JsonValue) (p : Str),
    flattenWalk cfg v p =
      ((leavesOf v).filter (fun e => !dropLeaf cfg e.2)).map (fun e => (sKey p e.1, e.2))
  | .null, p => by
    by_cases h : dropLeaf cfg .null <;> simp [flattenWalk, leavesOf, h, sKey]
  | .bool b, p => by
    by_cases h : dropLeaf cfg (.bool b) <;> simp [flattenWalk, leavesOf, h, sKey]
  | .num n, p => by
    by_cases h : dropLeaf cfg (.num n) <;> simp [flattenWalk, leavesOf, h, sKey]
  | .str s, p => by
    by_cases h : dropLeaf cfg (.str s) <;> simp [flattenWalk, leavesOf, h, sKey]
  | .arr xs, p => by
    rw [flattenWalk, leavesOf]; exact flattenWalkArr_eq cfg xs 0 p
  | .obj kvs, p => by
    rw [flattenWalk, leavesOf]; exact flattenWalkObj_eq cfg kvs p

theorem flattenWalkArr_eq (cfg : Config) : ∀ (xs : List JsonValue) (i : Nat) (p : Str),
    flattenWalkArr cfg xs p i =
      ((leavesOfArr xs i).filter (fun e => !dropLeaf cfg e.2)).map (fun e => (sKey p e.1, e.2))
  | [], i, p => by simp [flattenWalkArr, leavesOfArr]
  | x :: xs, i, p => by
    rw [flattenWalkArr, leavesOfArr, List.filter_append, List.map_append,
      flattenWalk_eq cfg x _, flattenWalkArr_eq cfg xs (i + 1) p,
      List.filter_map, List.map_map]
    rfl

theorem flattenWalkObj_eq (cfg : Config) : ∀ (kvs : List (Str × JsonValue)) (p : Str),
    flattenWalkObj cfg kvs p =
      ((leavesOfObj kvs).filter (fun e => !dropLeaf cfg e.2)).map (fun e => (sKey p e.1, e.2))
  | [], p => by simp [flattenWalkObj, leavesOfObj]
  | (k, v) :: rest, p => by
    rw [flattenWalkObj, leavesOfObj, List.filter_append, List.map_append,
      flattenWalk_eq cfg v _, flattenWalkObj_eq cfg rest p,
      List.filter_map, List.map_map]
    rfl
end

/-! Properties of paths of a good tree. -/

theorem goodKey_spec {c : Char} {k : Str} (h : goodKey c k = true) :
    k ≠ [] ∧ isCanonicalIndex k = false ∧ '.' ∉ k ∧ c ∉ k := by
  rw [goodKey] at h
  simp only [Bool.and_eq_true, Bool.not_eq_true'] at h
  obtain ⟨⟨⟨h1, h2⟩, h3⟩, h4⟩ := h
  refine ⟨?_, h2, ?_, ?_⟩
  · cases k with
    | nil => exact absurd h1 (by simp)
    | cons a l => simp
  · intro hm
    rw [List.contains_eq_any_beq] at h3
    have : k.any ('.' == ·) = true := List.any_eq_true.mpr ⟨'.', hm, by simp⟩
    rw [this] at h3
    exact Bool.noConfusion h3
  · intro hm
    rw [List.contains_eq_any_beq] at h4
    have : k.any (c == ·) = true := List.any_eq_true.mpr ⟨c, hm, by simp⟩
    rw [this] at h4
    exact Bool.noConfusion h4

theorem nodupKeys_spec {kvs : List (Str × JsonValue)} (h : nodupKeys kvs = true) :
    List.Pairwise (fun a b => a.1 ≠ b.1) kvs := by
  induction kvs with
  | nil => exact List.Pairwise.nil
  | cons e rest ih =>
    obtain ⟨k, v⟩ := e
    rw [nodupKeys] at h
    simp only [Bool.and_eq_true, Bool.not_eq_true'] at h
    obtain ⟨h1, h2⟩ := h
    refine List.Pairwise.cons ?_ (ih h2)
    intro b hb heq
    have : containsKey k rest = true := by
      rw [containsKey]
      exact List.any_eq_true.mpr ⟨b, hb, by simp at heq ⊢; exact heq.symm⟩
    rw [this] at h1
    exact Bool.noConfusion h1

theorem goodTree_arr_spec {c : Char} {xs : List JsonValue}
    (h : goodTree c (.arr xs) = true) : xs ≠ [] ∧ goodTreeArr c xs = true := by
  rw [goodTree] at h
  simp only [Bool.and_eq_true, Bool.not_eq_true'] at h
  exact ⟨by cases xs with | nil => exact absurd h.1 (by simp) | cons a l => simp, h.2⟩

theorem goodTree_obj_spec {c : Char} {kvs : List (Str × JsonValue)}
    (h : goodTree c (.obj kvs) = true) :
    kvs ≠ [] ∧ nodupKeys kvs = true ∧ goodTreeObj c kvs = true := by
  rw [goodTree] at h
  simp only [Bool.and_eq_true, Bool.not_eq_true'] at h
  exact ⟨by cases kvs with | nil => exact absurd h.1.1 (by simp) | cons a l => simp,
    h.1.2, h.2⟩

theorem goodTreeArr_mem {c : Char} {xs : List JsonValue} (h : goodTreeArr c xs = true) :
    ∀ x ∈ xs, goodTree c x = true := by
  induction xs with
  | nil => intro x hx; exact absurd hx (List.not_mem_nil x)
  | cons y ys ih =>
    rw [goodTreeArr, Bool.and_eq_true] at h
    intro x hx
    rcases List.mem_cons.mp hx with rfl | hx
    · exact h.1
    · exact ih h.2 x hx

theorem goodTreeObj_mem {c : Char} {kvs : List (Str × JsonValue)}
    (h : goodTreeObj c kvs = true) :
    ∀ e ∈ kvs, goodKey c e.1 = true ∧ goodTree c e.2 = true := by
  induction kvs with
  | nil => intro e he; exact absurd he (List.not_mem_nil e)
  | cons y ys ih =>
    obtain ⟨k, v⟩ := y
    rw [goodTreeObj, Bool.and_eq_true, Bool.and_eq_true] at h
    intro e he
    rcases List.mem_cons.mp he with rfl | he
    · exact ⟨h.1.1, h.1.2⟩
    · exact ih h.2 e he

theorem mem_leavesOfObj {kvs : List (Str × JsonValue)} {e : List Str × JsonValue}
    (h : e ∈ leavesOfObj kvs) :
    ∃ k v e', (k, v) ∈ kvs ∧ e' ∈ leavesOf v ∧ e = (k :: e'.1, e'.2) := by
  induction kvs with
  | nil => rw [leavesOfObj] at h; exact absurd h (List.not_mem_nil e)
  | cons y ys ih =>
    obtain ⟨k, v⟩ := y
    rw [leavesOfObj] at h
    rcases List.mem_append.mp h with h | h
    · obtain ⟨e', he', rfl⟩ := List.mem_map.mp h
      exact ⟨k, v, e', List.mem_cons_self _ _, he', rfl⟩
    · obtain ⟨k2, v2, e', hkv, he', rfl⟩ := ih h
      exact ⟨k2, v2, e', List.mem_cons_of_mem _ hkv, he', rfl⟩

theorem mem_leavesOfArr {xs : List JsonValue} :
    ∀ {i : Nat} {e : List Str × JsonValue}, e ∈ leavesOfArr xs i →
    ∃ j x e', i ≤ j ∧ j < i + xs.length ∧ x ∈ xs ∧ e' ∈ leavesOf x ∧
      e = (natToStr j :: e'.1, e'.2) := by
  induction xs with
  | nil => intro i e h; rw [leavesOfArr] at h; exact absurd h (List.not_mem_nil e)
  | cons y ys ih =>
    intro i e h
    rw [leavesOfArr] at h
    rcases List.mem_append.mp h with h | h
    · obtain ⟨e', he', rfl⟩ := List.mem_map.mp h
      exact ⟨i, y, e', le_refl i, by simp, List.mem_cons_self _ _, he', rfl⟩
    · obtain ⟨j, x, e', hij, hjlt, hx, he', rfl⟩ := ih h
      exact ⟨j, x, e', by omega, by simp at hjlt ⊢; omega, List.mem_cons_of_mem _ hx, he', rfl⟩

theorem containsKey_false_spec {k : Str} {l : List (Str × JsonValue)}
    (h : containsKey k l = false) : ∀ e ∈ l, ¬e.1 = k := by
  intro e he heq
  rw [containsKey] at h
  have : l.any (fun e => e.1 = k) = true :=
    List.any_eq_true.mpr ⟨e, he, by simp [heq]⟩
  rw [this] at h
  exact Bool.noConfusion h

mutual
theorem leaves_pairwise (c : Char) :
    ∀ t : JsonValue, goodTree c t = true →
      List.Pairwise (fun a b => a.1 ≠ b.1) (leavesOf t)
  | .null, _ => by simp [leavesOf]
  | .bool _, _ => by simp [leavesOf]
  | .num _, _ => by simp [leavesOf]
  | .str _, _ => by simp [leavesOf]
  | .arr xs, h => by
    rw [leavesOf]
    exact leavesArr_pairwise c xs 0 (goodTree_arr_spec h).2
  | .obj kvs, h => by
    rw [leavesOf]
    obtain ⟨_, hnd, hgo⟩ := goodTree_obj_spec h
    exact leavesObj_pairwise c kvs hnd hgo

theorem leavesObj_pairwise (c : Char) :
    ∀ kvs : List (Str × JsonValue), nodupKeys kvs = true → goodTreeObj c kvs = true →
      List.Pairwise (fun a b => a.1 ≠ b.1) (leavesOfObj kvs)
  | [], _, _ => by simp [leavesOfObj]
  | (k, v) :: rest, hnd, hgo => by
    rw [nodupKeys, Bool.and_eq_true, Bool.not_eq_true'] at hnd
    rw [goodTreeObj, Bool.and_eq_true, Bool.and_eq_true] at hgo
    rw [leavesOfObj, List.pairwise_append]
    refine ⟨?_, leavesObj_pairwise c rest hnd.2 hgo.2, ?_⟩
    · rw [List.pairwise_map]
      exact (leaves_pairwise c v hgo.1.2).imp (by intro a b hab; simpa using hab)
    · intro a ha b hb
      obtain ⟨ea, _, rfl⟩ := List.mem_map.mp ha
      obtain ⟨k2, v2, eb, hkv2, _, rfl⟩ := mem_leavesOfObj hb
      have : ¬k2 = k := containsKey_false_spec hnd.1 (k2, v2) hkv2
      simp only [ne_eq, List.cons.injEq, not_and]
      intro heq
      exact absurd heq.symm this

theorem leavesArr_pairwise (c : Char) :
    ∀ (xs : List JsonValue) (i : Nat), goodTreeArr c xs = true →
      List.Pairwise (fun a b => a.1 ≠ b.1) (leavesOfArr xs i)
  | [], _, _ => by simp [leavesOfArr]
  | x :: xs, i, hg => by
    rw [goodTreeArr, Bool.and_eq_true] at hg
    rw [leavesOfArr, List.pairwise_append]
    refine ⟨?_, leavesArr_pairwise c xs (i + 1) hg.2, ?_⟩
    · rw [List.pairwise_map]
      exact (leaves_pairwise c x hg.1).imp (by intro a b hab; simpa using hab)
    · intro a ha b hb
      obtain ⟨ea, _, rfl⟩ := List.mem_map.mp ha
      obtain ⟨j, x2, eb, hij, _, _, _, rfl⟩ := mem_leavesOfArr hb
      simp only [ne_eq, List.cons.injEq, not_and]
      intro heq
      exact absurd (natToStr_injective heq) (by omega)
end

mutual
theorem leaves_segs (c : Char) (hc : c.isDigit = false) :
    ∀ t : JsonValue, goodTree c t = true →
      ∀ e ∈ leavesOf t, ∀ s ∈ e.1, '.' ∉ s ∧ c ∉ s
  | .null, _ => by simp [leavesOf]
  | .bool _, _ => by simp [leavesOf]
  | .num _, _ => by simp [leavesOf]
  | .str _, _ => by simp [leavesOf]
  | .arr xs, h => by
    rw [leavesOf]
    exact leavesArr_segs c hc xs 0 (goodTree_arr_spec h).2
  | .obj kvs, h => by
    rw [leavesOf]
    exact leavesObj_segs c hc kvs (goodTree_obj_spec h).2.2

theorem leavesObj_segs (c : Char) (hc : c.isDigit = false) :
    ∀ kvs : List (Str × JsonValue), goodTreeObj c kvs = true →
      ∀ e ∈ leavesOfObj kvs, ∀ s ∈ e.1, '.' ∉ s ∧ c ∉ s
  | [], _ => by simp [leavesOfObj]
  | (k, v) :: rest, hgo => by
    rw [goodTreeObj, Bool.and_eq_true, Bool.and_eq_true] at hgo
    intro e he s hs
    rw [leavesOfObj] at he
    rcases List.mem_append.mp he with he | he
    · obtain ⟨e', he', rfl⟩ := List.mem_map.mp he
      rcases List.mem_cons.mp hs with rfl | hs
      · obtain ⟨_, _, hdot, hcm⟩ := goodKey_spec hgo.1.1
        exact ⟨hdot, hcm⟩
      · exact leaves_segs c hc v hgo.1.2 e' he' s hs
    · exact leavesObj_segs c hc rest hgo.2 e he s hs

theorem leavesArr_segs (c : Char) (hc : c.isDigit = false) :
    ∀ (xs : List JsonValue) (i : Nat), goodTreeArr c xs = true →
      ∀ e ∈ leavesOfArr xs i, ∀ s ∈ e.1, '.' ∉ s ∧ c ∉ s
  | [], _, _ => by simp [leavesOfArr]
  | x :: xs, i, hg => by
    rw [goodTreeArr, Bool.and_eq_true] at hg
    intro e he s hs
    rw [leavesOfArr] at he
    rcases List.mem_append.mp he with he | he
    · obtain ⟨e', he', rfl⟩ := List.mem_map.mp he
      rcases List.mem_cons.mp hs with rfl | hs
      · exact ⟨dot_not_mem_natToStr i, not_mem_natToStr_of_not_digit hc i⟩
      · exact leaves_segs c hc x hg.1 e' he' s hs
    · exact leavesArr_segs c hc xs (i + 1) hg.2 e he s hs
end

mutual
theorem leaves_ne_nil (c : Char) :
    ∀ t : JsonValue, goodTree c t = true → leavesOf t ≠ []
  | .null, _ => by simp [leavesOf]
  | .bool _, _ => by simp [leavesOf]
  | .num _, _ => by simp [leavesOf]
  | .str _, _ => by simp [leavesOf]
  | .arr xs, h => by
    rw [leavesOf]
    obtain ⟨hne, hga⟩ := goodTree_arr_spec h
    exact leavesArr_ne_nil c xs 0 hne hga
  | .obj kvs, h => by
    rw [leavesOf]
    obtain ⟨hne, _, hgo⟩ := goodTree_obj_spec h
    exact leavesObj_ne_nil c kvs hne hgo

theorem leavesObj_ne_nil (c : Char) :
    ∀ kvs : List (Str × JsonValue), kvs ≠ [] → goodTreeObj c kvs = true →
      leavesOfObj kvs ≠ []
  | [], hne, _ => absurd rfl hne
  | (k, v) :: rest, _, hgo => by
    rw [goodTreeObj, Bool.and_eq_true, Bool.and_eq_true] at hgo
    rw [leavesOfObj]
    have := leaves_ne_nil c v hgo.1.2
    intro hcon
    rcases List.append_eq_nil.mp hcon with ⟨h1, _⟩
    exact this (List.map_eq_nil_iff.mp h1)

theorem leavesArr_ne_nil (c : Char) :
    ∀ (xs : List JsonValue) (i : Nat), xs ≠ [] → goodTreeArr c xs = true →
      leavesOfArr xs i ≠ []
  | [], _, hne, _ => absurd rfl hne
  | x :: xs, i, _, hg => by
    rw [goodTreeArr, Bool.and_eq_true] at hg
    rw [leavesOfArr]
    have := leaves_ne_nil c x hg.1
    intro hcon
    rcases List.append_eq_nil.mp hcon with ⟨h1, _⟩
    exact this (List.map_eq_nil_iff.mp h1)
end

theorem containsKey_append (k : Str) (a b : List (Str × JsonValue)) :
    containsKey k (a ++ b) = (containsKey k a || containsKey k b) := by
  simp [containsKey, List.any_append]

theorem putEntry_of_not_contains {acc : List (Str × JsonValue)} {k : Str} {v : JsonValue}
    (h : containsKey k acc = false) : putEntry acc k v = acc ++ [(k, v)] := by
  rw [putEntry, if_neg (by simp [h])]

theorem foldl_put_of_nodup :
    ∀ (l acc : List (Str × JsonValue)), (∀ e ∈ l, containsKey e.1 acc = false) →
      List.Pairwise (fun a b => a.1 ≠ b.1) l →
      List.foldl (fun acc e => putEntry acc e.1 e.2) acc l = acc ++ l
  | [], acc, _, _ => by simp
  | e :: rest, acc, hct, hpw => by
    obtain ⟨k, v⟩ := e
    rw [List.foldl_cons, putEntry_of_not_contains (hct (k, v) (List.mem_cons_self _ _))]
    rw [foldl_put_of_nodup rest (acc ++ [(k, v)]) ?_ (List.Pairwise.sublist (List.sublist_cons_self _ _) hpw)]
    · simp
    · intro e he
      rw [containsKey_append]
      have h1 : containsKey e.1 acc = false := hct e (List.mem_cons_of_mem _ he)
      have h2 : containsKey e.1 [(k, v)] = false := by
        have hkne : k ≠ e.1 := (List.pairwise_cons.mp hpw).1 e he
        simp only [containsKey, List.any_cons, List.any_nil, Bool.or_false,
          decide_eq_false_iff_not]
        intro hc
        exact hkne hc
      rw [h1, h2]
      rfl

theorem dedupeEntries_of_pairwise {l : List (Str × JsonValue)}
    (h : List.Pairwise (fun a b => a.1 ≠ b.1) l) : dedupeEntries l = l := by
  rw [dedupeEntries, foldl_put_of_nodup l [] (fun e _ => rfl) h]
  simp

theorem mem_updateAssoc {e : Str × JsonValue} {k : Str} {v : JsonValue} :
    ∀ {l : List (Str × JsonValue)}, e ∈ updateAssoc k v l → e ∈ l ∨ e = (k, v)
  | [], h => by rw [updateAssoc] at h; exact absurd h (List.not_mem_nil e)
  | (k', v') :: rest, h => by
    rw [updateAssoc] at h
    by_cases hk : k' = k
    · rw [if_pos hk] at h
      rcases List.mem_cons.mp h with rfl | h
      · exact Or.inr rfl
      · exact Or.inl (List.mem_cons_of_mem _ h)
    · rw [if_neg hk] at h
      rcases List.mem_cons.mp h with rfl | h
      · exact Or.inl (List.mem_cons_self _ _)
      · rcases mem_updateAssoc h with h | h
        · exact Or.inl (List.mem_cons_of_mem _ h)
        · exact Or.inr h

theorem mem_putEntry {e : Str × JsonValue} {acc : List (Str × JsonValue)} {k : Str}
    {v : JsonValue} (h : e ∈ putEntry acc k v) : e ∈ acc ∨ e = (k, v) := by
  rw [putEntry] at h
  by_cases hc : containsKey k acc
  · rw [if_pos hc] at h
    exact mem_updateAssoc h
  · rw [if_neg hc] at h
    rcases List.mem_append.mp h with h | h
    · exact Or.inl h
    · exact Or.inr (List.mem_singleton.mp h)

theorem mem_foldl_put :
    ∀ (l acc : List (Str × JsonValue)) (e : Str × JsonValue),
      e ∈ List.foldl (fun acc e => putEntry acc e.1 e.2) acc l → e ∈ acc ∨ e ∈ l
  | [], acc, e, h => Or.inl h
  | x :: rest, acc, e, h => by
    rw [List.foldl_cons] at h
    rcases mem_foldl_put rest (putEntry acc x.1 x.2) e h with h | h
    · rcases mem_putEntry h with h | h
      · exact Or.inl h
      · exact Or.inr (by rw [h]; exact List.mem_cons_self _ _)
    · exact Or.inr (List.mem_cons_of_mem _ h)

theorem mem_dedupeEntries {l : List (Str × JsonValue)} {e : Str × JsonValue}
    (h : e ∈ dedupeEntries l) : e ∈ l := by
  rcases mem_foldl_put l [] e h with h | h
  · exact absurd h (List.not_mem_nil e)
  · exact h

/-! The flatten side of the round trip under a plain configuration. -/

theorem dropLeaf_plain (c : Char) (v : JsonValue) : dropLeaf (plainCfg c) v = false := by
  cases v <;> simp [dropLeaf, plainCfg]

theorem leaves_obj_shape {kvs : List (Str × JsonValue)} {c : Char}
    (hgo : goodTreeObj c kvs = true) :
    ∀ e ∈ leavesOfObj kvs, ∃ s p, e.1 = s :: p ∧ s ≠ [] := by
  intro e he
  obtain ⟨k, v, e', hkv, _, rfl⟩ := mem_leavesOfObj he
  exact ⟨k, e'.1, rfl, (goodKey_spec (goodTreeObj_mem hgo (k, v) hkv).1).1⟩

theorem leaves_arr_shape {xs : List JsonValue} {i : Nat} :
    ∀ e ∈ leavesOfArr xs i, ∃ s p, e.1 = s :: p ∧ s ≠ [] := by
  intro e he
  obtain ⟨j, x, e', _, _, _, _, rfl⟩ := mem_leavesOfArr he
  exact ⟨natToStr j, e'.1, rfl, natToStr_ne_nil j⟩

theorem leaves_shape {t : JsonValue} {c : Char} (hg : goodTree c t = true)
    (ht : (∃ kvs, t = .obj kvs) ∨ (∃ xs, t = .arr xs)) :
    ∀ e ∈ leavesOf t, ∃ s p, e.1 = s :: p ∧ s ≠ [] := by
  rcases ht with ⟨kvs, rfl⟩ | ⟨xs, rfl⟩
  · rw [leavesOf]
    exact leaves_obj_shape (goodTree_obj_spec hg).2.2
  · rw [leavesOf]
    exact leaves_arr_shape

theorem flattenValue_plain {c : Char} (hc : c.isDigit = false) {t : JsonValue}
    (hg : goodTree c t = true)
    (ht : (∃ kvs, t = .obj kvs) ∨ (∃ xs, t = .arr xs)) :
    flattenValue (plainCfg c) t =
      .ok (.obj ((leavesOf t).map (fun e => (joinChar c e.1, e.2)))) := by
  have hfilter : (leavesOf t).filter (fun e => !dropLeaf (plainCfg c) e.2) = leavesOf t :=
    List.filter_eq_self.mpr (fun e _ => by rw [dropLeaf_plain]; rfl)
  have hwalk : flattenWalk (plainCfg c) t [] =
      (leavesOf t).map (fun e => (sKey [] e.1, e.2)) := by
    rw [flattenWalk_eq, hfilter]
  have hkeys : ∀ e ∈ leavesOf t,
      flattenKeyTransform (plainCfg c) [] (sKey [] e.1) = joinChar c e.1 := by
    intro e he
    obtain ⟨s, p, hsp, hs⟩ := leaves_shape hg ht e he
    have hsegs := leaves_segs c hc t hg e he
    rw [flattenKeyTransform]
    have hlc : (plainCfg c).lowercaseKeys = false := rfl
    rw [hlc]
    simp only [Bool.false_eq_true, if_false, applyAll_nil]
    have hsep : (plainCfg c).separator = [c] := rfl
    rw [hsep, hsp, sKey_eq_joinChar s p hs, ← hsp]
    exact applySeparator_joinDot c e.1 (fun s hsm => (hsegs s hsm).1)
  have hmapped : (flattenWalk (plainCfg c) t []).map
        (fun e => (flattenKeyTransform (plainCfg c) [] e.1, valueTransform [] e.2)) =
      (leavesOf t).map (fun e => (joinChar c e.1, e.2)) := by
    rw [hwalk, List.map_map]
    apply List.map_congr_left
    intro e he
    simp only [Function.comp]
    rw [valueTransform_nil, hkeys e he]
  have hpw : List.Pairwise (fun a b => a.1 ≠ b.1)
      ((leavesOf t).map (fun e => (joinChar c e.1, e.2))) := by
    rw [List.pairwise_map]
    refine List.Pairwise.imp_of_mem ?_ (leaves_pairwise c t hg)
    intro a b ha hb hab
    obtain ⟨sa, pa, hspa, hsa⟩ := leaves_shape hg ht a ha
    obtain ⟨sb, pb, hspb, hsb⟩ := leaves_shape hg ht b hb
    have hca := leaves_segs c hc t hg a ha
    have hcb := leaves_segs c hc t hg b hb
    simp only [ne_eq]
    intro hjoin
    exact hab (joinChar_injOn c a.1 b.1 (by rw [hspa]; simp) (by rw [hspb]; simp)
      (fun s hs => (hca s hs).2) (fun s hs => (hcb s hs).2) hjoin)
  rcases ht with ⟨kvs, rfl⟩ | ⟨xs, rfl⟩
  · have hunfold : flattenValue (plainCfg c) (.obj kvs) = Except.ok (.obj (dedupeEntries
        ((flattenWalk (plainCfg c) (.obj kvs) []).map
          (fun e => (flattenKeyTransform (plainCfg c) [] e.1, valueTransform [] e.2))))) := rfl
    rw [hunfold, hmapped, dedupeEntries_of_pairwise hpw]
  · have hunfold : flattenValue (plainCfg c) (.arr xs) = Except.ok (.obj (dedupeEntries
        ((flattenWalk (plainCfg c) (.arr xs) []).map
          (fun e => (flattenKeyTransform (plainCfg c) [] e.1, valueTransform [] e.2))))) := rfl
    rw [hunfold, hmapped, dedupeEntries_of_pairwise hpw]

/-! The unflatten side: inserting the paths of a good tree rebuilds it. -/

theorem foldInsert_some : ∀ (L : List (List Str × JsonValue)) (t : JsonValue),
    foldInsert (some t) L = (insertMany t L).map some
  | [], t => rfl
  | (p, leaf) :: rest, t => by
    rw [foldInsert, insertMany]
    cases h : insertAt (some t) p leaf with
    | ok t2 => exact foldInsert_some rest t2
    | error e => rfl

theorem insertMany_append : ∀ (l1 l2 : List (List Str × JsonValue)) (t : JsonValue),
    insertMany t (l1 ++ l2) = (insertMany t l1).bind (fun t2 => insertMany t2 l2)
  | [], l2, t => rfl
  | (p, leaf) :: rest, l2, t => by
    rw [List.cons_append, insertMany, insertMany]
    cases h : insertAt (some t) p leaf with
    | ok t2 => exact insertMany_append rest l2 t2
    | error e => rfl

theorem lookup_eq_some_updateAssoc :
    ∀ {kvs : List (Str × JsonValue)} {k : Str} {c : JsonValue},
      kvs.lookup k = some c → ∀ v, (updateAssoc k v kvs).lookup k = some v
  | [], k, c, h, v => by simp [List.lookup] at h
  | (k2, v2) :: rest, k, c, h, v => by
    by_cases hk : k2 = k
    · subst hk
      rw [updateAssoc, if_pos rfl]
      simp [List.lookup]
    · rw [updateAssoc, if_neg hk]
      rw [List.lookup] at h ⊢
      have hbk : (k == k2) = false := beq_false_of_ne (fun he => hk he.symm)
      rw [hbk] at h ⊢
      exact lookup_eq_some_updateAssoc h v

theorem updateAssoc_self :
    ∀ {kvs : List (Str × JsonValue)} {k : Str} {c : JsonValue},
      kvs.lookup k = some c → updateAssoc k c kvs = kvs
  | [], k, c, h => by simp [List.lookup] at h
  | (k2, v2) :: rest, k, c, h => by
    by_cases hk : k2 = k
    · subst hk
      rw [List.lookup] at h
      rw [beq_self_eq_true] at h
      simp only [Option.some.injEq] at h
      rw [updateAssoc, if_pos rfl, h]
    · rw [updateAssoc, if_neg hk]
      rw [List.lookup] at h
      have hbk : (k == k2) = false := beq_false_of_ne (fun he => hk he.symm)
      rw [hbk] at h
      rw [updateAssoc_self h]

theorem updateAssoc_updateAssoc :
    ∀ (kvs : List (Str × JsonValue)) (k : Str) (v1 v2 : JsonValue),
      updateAssoc k v2 (updateAssoc k v1 kvs) = updateAssoc k v2 kvs
  | [], _, _, _ => rfl
  | (k2, v') :: rest, k, v1, v2 => by
    by_cases hk : k2 = k
    · subst hk
      rw [updateAssoc, if_pos rfl, updateAssoc, if_pos rfl, updateAssoc, if_pos rfl]
    · rw [updateAssoc, if_neg hk, updateAssoc, if_neg hk, updateAssoc, if_neg hk,
        updateAssoc_updateAssoc rest k v1 v2]

theorem updateAssoc_append_fresh :
    ∀ {kvs : List (Str × JsonValue)} {k : Str}, kvs.lookup k = none →
      ∀ (c v : JsonValue), updateAssoc k v (kvs ++ [(k, c)]) = kvs ++ [(k, v)]
  | [], k, _, c, v => by simp [updateAssoc]
  | (k2, v2) :: rest, k, h, c, v => by
    rw [List.lookup] at h
    cases hbk : (k == k2) with
    | true => rw [hbk] at h; exact Option.noConfusion h
    | false =>
      rw [hbk] at h
      have hk : ¬k2 = k := fun he => by
        rw [he] at hbk
        rw [beq_self_eq_true] at hbk
        exact Bool.noConfusion hbk
      rw [List.cons_append, updateAssoc, if_neg hk, updateAssoc_append_fresh h c v]
      rfl

theorem lookup_append_fresh :
    ∀ {kvs : List (Str × JsonValue)} {k : Str}, kvs.lookup k = none →
      ∀ c : JsonValue, (kvs ++ [(k, c)]).lookup k = some c
  | [], k, _, c => by simp [List.lookup]
  | (k2, v2) :: rest, k, h, c => by
    rw [List.lookup] at h
    cases hbk : (k == k2) with
    | true => rw [hbk] at h; exact Option.noConfusion h
    | false =>
      rw [hbk] at h
      rw [List.cons_append, List.lookup, hbk]
      exact lookup_append_fresh h c

theorem lookup_append_none :
    ∀ {kvs : List (Str × JsonValue)} {k k2 : Str}, kvs.lookup k = none → k ≠ k2 →
      ∀ c : JsonValue, (kvs ++ [(k2, c)]).lookup k = none
  | [], k, k2, _, hne, c => by
    simp [List.lookup, beq_false_of_ne hne]
  | (k3, v3) :: rest, k, k2, h, hne, c => by
    rw [List.lookup] at h
    cases hbk : (k == k3) with
    | true => rw [hbk] at h; exact Option.noConfusion h
    | false =>
      rw [hbk] at h
      rw [List.cons_append, List.lookup, hbk]
      exact lookup_append_none h hne c

theorem insertAt_obj_some {s : Str} (hs : isCanonicalIndex s = false)
    (p : List Str) (leaf : JsonValue) (kvs : List (Str × JsonValue)) (child : JsonValue)
    (hlk : kvs.lookup s = some child) :
    insertAt (some (.obj kvs)) (s :: p) leaf =
      (insertAt (some child) p leaf).map (fun ch => .obj (updateAssoc s ch kvs)) := by
  simp only [insertAt, hs, Bool.false_eq_true, if_false, hlk]
  cases hres : insertAt (some child) p leaf <;> rfl

theorem insertAt_obj_fresh {s : Str} (hs : isCanonicalIndex s = false)
    (p : List Str) (leaf : JsonValue) (kvs : List (Str × JsonValue))
    (hlk : kvs.lookup s = none) :
    insertAt (some (.obj kvs)) (s :: p) leaf =
      (insertAt none p leaf).map (fun ch => .obj (kvs ++ [(s, ch)])) := by
  simp only [insertAt, hs, Bool.false_eq_true, if_false, hlk]
  cases hres : insertAt none p leaf <;> rfl

theorem insertAt_none_obj {s : Str} (hs : isCanonicalIndex s = false)
    (p : List Str) (leaf : JsonValue) :
    insertAt none (s :: p) leaf = (insertAt none p leaf).map (fun ch => .obj [(s, ch)]) := by
  simp only [insertAt, hs, Bool.false_eq_true, if_false]
  cases hres : insertAt none p leaf <;> rfl

theorem insertAt_arr_set (i : Nat) (p : List Str) (leaf : JsonValue)
    (xs : List JsonValue) (h : i < xs.length) :
    insertAt (some (.arr xs)) (natToStr i :: p) leaf =
      (insertAt (some xs[i]) p leaf).map (fun ch => .arr (xs.set i ch)) := by
  simp only [insertAt, isCanonicalIndex_natToStr, if_true, strToNat_natToStr, dif_pos h]
  cases hres : insertAt (some xs[i]) p leaf <;> rfl

theorem insertAt_arr_append (p : List Str) (leaf : JsonValue) (xs : List JsonValue) :
    insertAt (some (.arr xs)) (natToStr xs.length :: p) leaf =
      (insertAt none p leaf).map (fun ch => .arr (xs ++ [ch])) := by
  have hnlt : ¬xs.length < xs.length := lt_irrefl _
  simp only [insertAt, isCanonicalIndex_natToStr, if_true, strToNat_natToStr,
    dif_neg hnlt, if_pos rfl]
  cases hres : insertAt none p leaf <;> rfl

theorem insertAt_none_arr (p : List Str) (leaf : JsonValue) :
    insertAt none (natToStr 0 :: p) leaf =
      (insertAt none p leaf).map (fun ch => .arr [ch]) := by
  simp only [insertAt, isCanonicalIndex_natToStr, if_true, strToNat_natToStr, if_pos rfl]
  cases hres : insertAt none p leaf <;> rfl

theorem set_getElem_own {α : Type} :
    ∀ (xs : List α) (i : Nat) (h : i < xs.length), xs.set i xs[i] = xs
  | x :: xs, 0, _ => rfl
  | x :: xs, i + 1, h => by
    have := set_getElem_own xs i (by simpa using Nat.lt_of_succ_lt_succ h)
    simp only [List.set_cons_succ, List.getElem_cons_succ]
    rw [this]

theorem insertMany_obj_group_some {s : Str} (hs : isCanonicalIndex s = false) :
    ∀ (L : List (List Str × JsonValue)) (kvs : List (Str × JsonValue)) (child : JsonValue),
      kvs.lookup s = some child →
      insertMany (.obj kvs) (L.map (fun e => (s :: e.1, e.2))) =
        (insertMany child L).map (fun r => .obj (updateAssoc s r kvs))
  | [], kvs, child, hlk => by
    rw [List.map_nil, insertMany, insertMany, Except.map, updateAssoc_self hlk]
  | e :: L, kvs, child, hlk => by
    rw [List.map_cons, insertMany, insertMany,
      insertAt_obj_some hs e.1 e.2 kvs child hlk]
    cases hres : insertAt (some child) e.1 e.2 with
    | error err => rfl
    | ok ch =>
      have ih := insertMany_obj_group_some hs L (updateAssoc s ch kvs) ch
        (lookup_eq_some_updateAssoc hlk ch)
      show insertMany (JsonValue.obj (updateAssoc s ch kvs)) (L.map (fun e => (s :: e.1, e.2))) =
        Except.map (fun r => JsonValue.obj (updateAssoc s r kvs)) (insertMany ch L)
      rw [ih]
      cases insertMany ch L <;> simp [Except.map, updateAssoc_updateAssoc]

theorem insertMany_obj_group_fresh {s : Str} (hs : isCanonicalIndex s = false)
    (e0 : List Str × JsonValue) (L : List (List Str × JsonValue))
    (kvs : List (Str × JsonValue)) (hlk : kvs.lookup s = none) :
    insertMany (.obj kvs) ((e0 :: L).map (fun e => (s :: e.1, e.2))) =
      (buildSub (e0 :: L)).map (fun r => .obj (kvs ++ [(s, r)])) := by
  rw [List.map_cons, insertMany, buildSub,
    insertAt_obj_fresh hs e0.1 e0.2 kvs hlk]
  cases hres : insertAt none e0.1 e0.2 with
  | error err => rfl
  | ok c0 =>
    have ih := insertMany_obj_group_some hs L (kvs ++ [(s, c0)]) c0
      (lookup_append_fresh hlk c0)
    show insertMany (JsonValue.obj (kvs ++ [(s, c0)])) (L.map (fun e => (s :: e.1, e.2))) =
      Except.map (fun r => JsonValue.obj (kvs ++ [(s, r)])) (insertMany c0 L)
    rw [ih]
    cases insertMany c0 L <;>
      simp [Except.map, updateAssoc_append_fresh hlk]

theorem insertMany_arr_group_set (i : Nat) :
    ∀ (L : List (List Str × JsonValue)) (xs : List JsonValue) (h : i < xs.length),
      insertMany (.arr xs) (L.map (fun e => (natToStr i :: e.1, e.2))) =
        (insertMany xs[i] L).map (fun r => .arr (xs.set i r))
  | [], xs, h => by
    rw [List.map_nil, insertMany, insertMany, Except.map, set_getElem_own xs i h]
  | e :: L, xs, h => by
    rw [List.map_cons, insertMany, insertMany, insertAt_arr_set i e.1 e.2 xs h]
    cases hres : insertAt (some xs[i]) e.1 e.2 with
    | error err => rfl
    | ok ch =>
      have hlen : i < (xs.set i ch).length := by simpa using h
      have ih := insertMany_arr_group_set i L (xs.set i ch) hlen
      have hget : (xs.set i ch)[i] = ch := List.getElem_set_self hlen
      show insertMany (JsonValue.arr (xs.set i ch)) (L.map (fun e => (natToStr i :: e.1, e.2))) =
        Except.map (fun r => JsonValue.arr (xs.set i r)) (insertMany ch L)
      rw [ih, hget]
      cases insertMany ch L <;> simp [Except.map, List.set_set]

theorem insertMany_arr_group_append (e0 : List Str × JsonValue)
    (L : List (List Str × JsonValue)) (xs : List JsonValue) :
    insertMany (.arr xs) ((e0 :: L).map (fun e => (natToStr xs.length :: e.1, e.2))) =
      (buildSub (e0 :: L)).map (fun r => .arr (xs ++ [r])) := by
  rw [List.map_cons, insertMany, buildSub, insertAt_arr_append e0.1 e0.2 xs]
  cases hres : insertAt none e0.1 e0.2 with
  | error err => rfl
  | ok c0 =>
    have hlen : xs.length < (xs ++ [c0]).length := by simp
    have ih := insertMany_arr_group_set xs.length L (xs ++ [c0]) hlen
    have hget : (xs ++ [c0])[xs.length] = c0 := List.getElem_concat_length xs c0 _ rfl hlen
    show insertMany (JsonValue.arr (xs ++ [c0]))
        (L.map (fun e => (natToStr xs.length :: e.1, e.2))) =
      Except.map (fun r => JsonValue.arr (xs ++ [r])) (insertMany c0 L)
    rw [ih, hget]
    cases insertMany c0 L with
    | error err => rfl
    | ok r =>
      simp only [Except.map]
      have : (xs ++ [c0]).set xs.length r = xs ++ [r] := by
        rw [List.set_append_right xs.length r (le_refl _)]
        simp
      rw [this]

theorem lookup_singleton_self (k : Str) (v : JsonValue) :
    ([(k, v)] : List (Str × JsonValue)).lookup k = some v := by
  simp [List.lookup]

theorem lookup_singleton_ne {k k2 : Str} (h : ¬k = k2) (v : JsonValue) :
    ([(k2, v)] : List (Str × JsonValue)).lookup k = none := by
  simp [List.lookup, beq_false_of_ne h]

theorem updateAssoc_singleton (k : Str) (c v : JsonValue) :
    updateAssoc k v [(k, c)] = [(k, v)] := by
  rw [updateAssoc, if_pos rfl]

mutual
theorem buildSub_leaves (c : Char) :
    ∀ t : JsonValue, goodTree c t = true → buildSub (leavesOf t) = .ok t
  | .null, _ => rfl
  | .bool _, _ => rfl
  | .num _, _ => rfl
  | .str _, _ => rfl
  | .obj kvs, hg => by
    obtain ⟨hne, hnd, hgo⟩ := goodTree_obj_spec hg
    cases kvs with
    | nil => exact absurd rfl hne
    | cons hd rest =>
      obtain ⟨k1, v1⟩ := hd
      rw [nodupKeys, Bool.and_eq_true, Bool.not_eq_true'] at hnd
      rw [goodTreeObj, Bool.and_eq_true, Bool.and_eq_true] at hgo
      obtain ⟨hk1, hv1good⟩ := hgo.1
      have hknotidx : isCanonicalIndex k1 = false := (goodKey_spec hk1).2.1
      have hv1 := buildSub_leaves c v1 hv1good
      rw [leavesOf]
      cases hL : leavesOf v1 with
      | nil => exact absurd hL (leaves_ne_nil c v1 hv1good)
      | cons e0 L =>
        rw [hL] at hv1
        rw [leavesOfObj, hL, List.map_cons]
        show (do
          let t ← insertAt none (k1 :: e0.1) e0.2
          insertMany t ((L.map (fun e => (k1 :: e.1, e.2))) ++ leavesOfObj rest)) =
          Except.ok (.obj ((k1, v1) :: rest))
        rw [insertAt_none_obj hknotidx e0.1 e0.2]
        rw [buildSub] at hv1
        cases hres : insertAt none e0.1 e0.2 with
        | error err => rw [hres] at hv1; exact Except.noConfusion hv1
        | ok c0 =>
          rw [hres] at hv1
          have hMany : insertMany c0 L = .ok v1 := hv1
          show insertMany (JsonValue.obj [(k1, c0)])
              ((L.map (fun e => (k1 :: e.1, e.2))) ++ leavesOfObj rest) =
            Except.ok (.obj ((k1, v1) :: rest))
          rw [insertMany_append,
            insertMany_obj_group_some hknotidx L [(k1, c0)] c0 (lookup_singleton_self k1 c0),
            hMany]
          show insertMany (JsonValue.obj (updateAssoc k1 v1 [(k1, c0)])) (leavesOfObj rest) =
            Except.ok (.obj ((k1, v1) :: rest))
          rw [updateAssoc_singleton]
          have hrest := insertMany_obj_acc c rest [(k1, v1)] hgo.2 hnd.2 ?_
          · rw [hrest]
            rfl
          · intro e he
            exact lookup_singleton_ne (containsKey_false_spec hnd.1 e he) v1
  | .arr xs, hg => by
    obtain ⟨hne, hga⟩ := goodTree_arr_spec hg
    cases xs with
    | nil => exact absurd rfl hne
    | cons x rest =>
      rw [goodTreeArr, Bool.and_eq_true] at hga
      have hx := buildSub_leaves c x hga.1
      rw [leavesOf]
      cases hL : leavesOf x with
      | nil => exact absurd hL (leaves_ne_nil c x hga.1)
      | cons e0 L =>
        rw [hL] at hx
        rw [leavesOfArr, hL, List.map_cons]
        show (do
          let t ← insertAt none (natToStr 0 :: e0.1) e0.2
          insertMany t ((L.map (fun e => (natToStr 0 :: e.1, e.2))) ++ leavesOfArr rest 1)) =
          Except.ok (.arr (x :: rest))
        rw [insertAt_none_arr e0.1 e0.2]
        rw [buildSub] at hx
        cases hres : insertAt none e0.1 e0.2 with
        | error err => rw [hres] at hx; exact Except.noConfusion hx
        | ok c0 =>
          rw [hres] at hx
          have hMany : insertMany c0 L = .ok x := hx
          show insertMany (JsonValue.arr [c0])
              ((L.map (fun e => (natToStr 0 :: e.1, e.2))) ++ leavesOfArr rest 1) =
            Except.ok (.arr (x :: rest))
          rw [insertMany_append,
            insertMany_arr_group_set 0 L [c0] (by simp)]
          have hgetc : ([c0] : List JsonValue)[0] = c0 := rfl
          rw [hgetc, hMany]
          show insertMany (JsonValue.arr ([c0].set 0 x)) (leavesOfArr rest 1) =
            Except.ok (.arr (x :: rest))
          have hset : [c0].set 0 x = [x] := rfl
          rw [hset]
          have hrest := insertMany_arr_acc c rest [x] hga.2
          simp only [List.length_singleton] at hrest
          rw [hrest]
          rfl

theorem insertMany_obj_acc (c : Char) :
    ∀ (kvs built : List (Str × JsonValue)),
      goodTreeObj c kvs = true → nodupKeys kvs = true →
      (∀ e ∈ kvs, built.lookup e.1 = none) →
      insertMany (.obj built) (leavesOfObj kvs) = .ok (.obj (built ++ kvs))
  | [], built, _, _, _ => by rw [leavesOfObj, insertMany]; simp
  | (k, v) :: rest, built, hgo, hnd, hlk => by
    rw [goodTreeObj, Bool.and_eq_true, Bool.and_eq_true] at hgo
    rw [nodupKeys, Bool.and_eq_true, Bool.not_eq_true'] at hnd
    have hknotidx : isCanonicalIndex k = false := (goodKey_spec hgo.1.1).2.1
    have hv := buildSub_leaves c v hgo.1.2
    rw [leavesOfObj]
    cases hL : leavesOf v with
    | nil => exact absurd hL (leaves_ne_nil c v hgo.1.2)
    | cons e0 L =>
      rw [hL] at hv
      rw [insertMany_append,
        insertMany_obj_group_fresh hknotidx e0 L built (hlk (k, v) (List.mem_cons_self _ _)),
        hv]
      show insertMany (JsonValue.obj (built ++ [(k, v)])) (leavesOfObj rest) =
        Except.ok (.obj (built ++ (k, v) :: rest))
      have hrest := insertMany_obj_acc c rest (built ++ [(k, v)]) hgo.2 hnd.2 ?_
      · rw [hrest]
        simp
      · intro e he
        refine lookup_append_none (hlk e (List.mem_cons_of_mem _ he)) ?_ v
        intro heq
        exact (containsKey_false_spec hnd.1 e he) heq

theorem insertMany_arr_acc (c : Char) :
    ∀ (xs built : List JsonValue),
      goodTreeArr c xs = true →
      insertMany (.arr built) (leavesOfArr xs built.length) = .ok (.arr (built ++ xs))
  | [], built, _ => by rw [leavesOfArr, insertMany]; simp
  | x :: rest, built, hga => by
    rw [goodTreeArr, Bool.and_eq_true] at hga
    have hx := buildSub_leaves c x hga.1
    rw [leavesOfArr]
    cases hL : leavesOf x with
    | nil => exact absurd hL (leaves_ne_nil c x hga.1)
    | cons e0 L =>
      rw [hL] at hx
      rw [insertMany_append, insertMany_arr_group_append e0 L built, hx]
      show insertMany (JsonValue.arr (built ++ [x])) (leavesOfArr rest (built.length + 1)) =
        Except.ok (.arr (built ++ x :: rest))
      have hrest := insertMany_arr_acc c rest (built ++ [x]) hga.2
      have hlen : (built ++ [x]).length = built.length + 1 := by simp
      rw [hlen] at hrest
      rw [hrest]
      simp
end

theorem unflattenValue_plain {c : Char} (hc : c.isDigit = false) {t : JsonValue}
    (hg : goodTree c t = true)
    (ht : (∃ kvs, t = .obj kvs) ∨ (∃ xs, t = .arr xs)) :
    unflattenValue (plainCfg c)
      (.obj ((leavesOf t).map (fun e => (joinChar c e.1, e.2)))) = .ok t := by
  have hproc : ((leavesOf t).map (fun e => (joinChar c e.1, e.2))).map
      (fun e => (splitOnStr (plainCfg c).separator (unflattenKeyTransform (plainCfg c) [] e.1),
        valueTransform [] e.2)) = leavesOf t := by
    rw [List.map_map]
    have : ∀ e ∈ leavesOf t,
        ((fun e => (splitOnStr (plainCfg c).separator (unflattenKeyTransform (plainCfg c) [] e.1),
          valueTransform [] e.2)) ∘ (fun e => (joinChar c e.1, e.2))) e = e := by
      intro e he
      obtain ⟨s, p, hsp, _⟩ := leaves_shape hg ht e he
      have hsegs := leaves_segs c hc t hg e he
      simp only [Function.comp]
      rw [valueTransform_nil]
      have hkt : unflattenKeyTransform (plainCfg c) [] (joinChar c e.1) = joinChar c e.1 := rfl
      have hsepc : (plainCfg c).separator = [c] := rfl
      rw [hkt, hsepc, splitOnStr_single,
        splitOnChar_joinChar c e.1 (by rw [hsp]; simp) (fun s hs => (hsegs s hs).2)]
    rw [List.map_congr_left this]
    exact List.map_id _
  have hfold : foldInsert none (leavesOf t) = .ok (some t) := by
    cases hL : leavesOf t with
    | nil => exact absurd hL (leaves_ne_nil c t hg)
    | cons e0 L =>
      have hbuild := buildSub_leaves c t hg
      rw [hL] at hbuild
      rw [buildSub] at hbuild
      rw [foldInsert]
      cases hres : insertAt none e0.1 e0.2 with
      | error err => rw [hres] at hbuild; exact Except.noConfusion hbuild
      | ok c0 =>
        rw [hres] at hbuild
        have hMany : insertMany c0 L = .ok t := hbuild
        show foldInsert (some c0) L = .ok (some t)
        rw [foldInsert_some, hMany]
        rfl
  show (do
    let kms ← compileMatchers (plainCfg c).keyMatchers
    let vms ← compileMatchers (plainCfg c).valueMatchers
    match (JsonValue.obj ((leavesOf t).map (fun e => (joinChar c e.1, e.2)))) with
    | .obj entries => do
      let processed := entries.map
        (fun e => (splitOnStr (plainCfg c).separator (unflattenKeyTransform (plainCfg c) kms e.1),
                   valueTransform vms e.2))
      match ← foldInsert none processed with
      | some r => Except.ok r
      | none => Except.ok (.obj [])
    | v => Except.ok v) = Except.ok t
  show (do
    match ← foldInsert none (((leavesOf t).map (fun e => (joinChar c e.1, e.2))).map
        (fun e => (splitOnStr (plainCfg c).separator (unflattenKeyTransform (plainCfg c) [] e.1),
                   valueTransform [] e.2))) with
    | some r => Except.ok r
    | none => Except.ok (.obj [])) = Except.ok t
  rw [hproc, hfold]
  rfl

theorem roundtrip_plain {c : Char} (hc : c.isDigit = false) :
    ∀ {t : JsonValue}, goodTree c t = true →
      (flattenValue (plainCfg c) t).bind (unflattenValue (plainCfg c)) = .ok t
  | .null, _ => rfl
  | .bool _, _ => rfl
  | .num _, _ => rfl
  | .str _, _ => rfl
  | .obj kvs, hg => by
    rw [flattenValue_plain hc hg (Or.inl ⟨kvs, rfl⟩)]
    exact unflattenValue_plain hc hg (Or.inl ⟨kvs, rfl⟩)
  | .arr xs, hg => by
    rw [flattenValue_plain hc hg (Or.inr ⟨xs, rfl⟩)]
    exact unflattenValue_plain hc hg (Or.inr ⟨xs, rfl⟩)

theorem mapE_map_ok {α β : Type} {f : α → Except JsonToolsError β} :
    ∀ {l : List α} {g : α → β}, (∀ a ∈ l, f a = .ok (g a)) → mapE f l = .ok (l.map g)
  | [], g, _ => rfl
  | a :: as, g, h => by
    rw [mapE, h a (List.mem_cons_self _ _),
      List.map_cons]
    show (do
      let bs ← mapE f as
      Except.ok (g a :: bs)) = Except.ok (g a :: as.map g)
    rw [mapE_map_ok (fun x hx => h x (List.mem_cons_of_mem _ hx))]
    rfl

/-! Batch runner lemmas. -/

theorem processDoc_tag {parse : Str → Option JsonValue} {render : JsonValue → Str}
    {op : Config → JsonValue → Except JsonToolsError JsonValue} {cfg : Config}
    {d : PyDoc} {o : OutDoc} (h : processDoc parse render op cfg d = .ok o) :
    o.isText = d.isText := by
  cases d with
  | text s =>
    cases hp : parse s with
    | none =>
      rw [processDoc, hp] at h
      exact Except.noConfusion h
    | some v =>
      have h2 : Except.map (fun r => OutDoc.text (render r)) (op cfg v) = .ok o := by
        rw [processDoc, hp] at h
        exact h
      cases hop : op cfg v with
      | error e => rw [hop] at h2; exact Except.noConfusion h2
      | ok r =>
        rw [hop] at h2
        have ho : OutDoc.text (render r) = o := Except.ok.inj h2
        rw [← ho]
        rfl
  | dict kvs =>
    have h2 : Except.map OutDoc.native (op cfg (.obj kvs)) = .ok o := h
    cases hop : op cfg (.obj kvs) with
    | error e => rw [hop] at h2; exact Except.noConfusion h2
    | ok r =>
      rw [hop] at h2
      have ho : OutDoc.native r = o := Except.ok.inj h2
      rw [← ho]
      rfl
  | pyOther v => exact Except.noConfusion h

theorem mapE_ok_spec {α β : Type} {f : α → Except JsonToolsError β} :
    ∀ {l : List α} {r : List β}, mapE f l = .ok r →
      r.length = l.length ∧
        ∀ (i : Nat) (h : i < l.length) (h2 : i < r.length),
          f (l.get ⟨i, h⟩) = .ok (r.get ⟨i, h2⟩)
  | [], r, h => by
    have hr : ([] : List β) = r := Except.ok.inj h
    subst hr
    exact ⟨rfl, fun i h _ => absurd h (by simp)⟩
  | a :: as, r, h => by
    rw [mapE] at h
    cases hfa : f a with
    | error e => rw [hfa] at h; exact Except.noConfusion h
    | ok b =>
      rw [hfa] at h
      have h3 : (do
          let bs ← mapE f as
          Except.ok (b :: bs)) = Except.ok r := h
      cases hrest : mapE f as with
      | error e =>
        rw [hrest] at h3
        exact Except.noConfusion h3
      | ok bs =>
        rw [hrest] at h3
        have hr : b :: bs = r := Except.ok.inj h3
        subst hr
        obtain ⟨hlen, hidx⟩ := mapE_ok_spec hrest
        refine ⟨by simp [hlen], ?_⟩
        intro i hi hi2
        cases i with
        | zero => simpa using hfa
        | succ j =>
          have hj : j < as.length := by simpa using hi
          have hj2 : j < bs.length := by simpa using hi2
          simpa using hidx j hj hj2

theorem mapE_ne_ok_of_fail {α β : Type} {f : α → Except JsonToolsError β} :
    ∀ {l : List α} {a : α}, a ∈ l → (∀ b, f a ≠ .ok b) →
      ∀ r, mapE f l ≠ .ok r
  | [], a, ha, _ => absurd ha (List.not_mem_nil a)
  | x :: xs, a, ha, hfail => by
    intro r hok
    rw [mapE] at hok
    cases hfx : f x with
    | error e => rw [hfx] at hok; exact Except.noConfusion hok
    | ok b =>
      rw [hfx] at hok
      have h3 : (do
          let bs ← mapE f xs
          Except.ok (b :: bs)) = Except.ok r := hok
      rcases List.mem_cons.mp ha with rfl | ha
      · exact hfail b hfx
      · cases hrest : mapE f xs with
        | error e => rw [hrest] at h3; exact Except.noConfusion h3
        | ok bs => exact mapE_ne_ok_of_fail ha hfail bs hrest

/-- C4: the batch runner preserves shape and per-item representation: a
single Text document yields a single Text result, a single Native document
a single Native result, an empty list an empty list, and a list of N
documents a list of exactly N results whose i-th element carries the same
representation tag as the i-th input, for every configuration and any
operation — in particular for `runFlatten` and `runUnflatten`, which are
`runOp` at `flattenValue` and `unflattenValue`. -/
theorem c4_shape_preservation
    (parse : Str → Option JsonValue) (render : JsonValue → Str)
    (op : Config → JsonValue → Except JsonToolsError JsonValue) (cfg : Config) :
    (∀ (s : Str) (out : Output), runOp parse render op cfg (.one (.text s)) = .ok out →
      ∃ s2, out = .single (.text s2)) ∧
    (∀ (kvs : List (Str × JsonValue)) (out : Output),
      runOp parse render op cfg (.one (.dict kvs)) = .ok out →
      ∃ v, out = .single (.native v)) ∧
    (runOp parse render op cfg (.many []) = .ok (.multiple [])) ∧
    (∀ (ds : List PyDoc) (out : Output), ds.all PyDoc.isDoc = true →
      runOp parse render op cfg (.many ds) = .ok out →
      ∃ os : List OutDoc, out = .multiple os ∧ os.length = ds.length ∧
        ∀ (i : Nat) (h : i < ds.length) (h2 : i < os.length),
          (os.get ⟨i, h2⟩).isText = (ds.get ⟨i, h⟩).isText) ∧
    (∀ input, runFlatten parse render cfg input = runOp parse render flattenValue cfg input ∧
      runUnflatten parse render cfg input = runOp parse render unflattenValue cfg input) := by
  refine ⟨?_, ?_, rfl, ?_, fun _ => ⟨rfl, rfl⟩⟩
  · intro s out h
    cases hd : processDoc parse render op cfg (.text s) with
    | error e =>
      rw [runOp, hd] at h
      exact Except.noConfusion h
    | ok o =>
      rw [runOp, hd] at h
      have hout : Output.single o = out := Except.ok.inj h
      have htag := processDoc_tag hd
      cases o with
      | text s2 => exact ⟨s2, hout.symm⟩
      | native v => exact absurd htag (by simp [OutDoc.isText, PyDoc.isText])
  · intro kvs out h
    cases hd : processDoc parse render op cfg (.dict kvs) with
    | error e =>
      rw [runOp, hd] at h
      exact Except.noConfusion h
    | ok o =>
      rw [runOp, hd] at h
      have hout : Output.single o = out := Except.ok.inj h
      have htag := processDoc_tag hd
      cases o with
      | text s2 => exact absurd htag (by simp [OutDoc.isText, PyDoc.isText])
      | native v => exact ⟨v, hout.symm⟩
  · intro ds out hall h
    rw [runOp, if_pos hall] at h
    cases hmap : mapE (processDoc parse render op cfg) ds with
    | error e => rw [hmap] at h; exact Except.noConfusion h
    | ok os =>
      rw [hmap] at h
      obtain ⟨hlen, hidx⟩ := mapE_ok_spec hmap
      have hout : Output.multiple os = out := Except.ok.inj h
      refine ⟨os, hout.symm, hlen, ?_⟩
      intro i hi hi2
      exact processDoc_tag (hidx i hi hi2)

/-- C4 witness: a concrete heterogeneous batch (a Text element and a
Native element) flattened with the default configuration keeps length and
per-item representation. -/
theorem c4_witness :
    ([PyDoc.text (strL "in"), PyDoc.dict [(strL "a", .num 1)]].all PyDoc.isDoc = true) ∧
    ∃ os : List OutDoc,
      (Output.multiple [OutDoc.text (strL "out"), OutDoc.native (.obj [(strL "a", .num 1)])]) =
        .multiple os ∧
      os.length = [PyDoc.text (strL "in"), PyDoc.dict [(strL "a", .num 1)]].length ∧
      ∀ (i : Nat) (h : i < [PyDoc.text (strL "in"), PyDoc.dict [(strL "a", .num 1)]].length)
        (h2 : i < os.length),
        (os.get ⟨i, h2⟩).isText =
          ([PyDoc.text (strL "in"), PyDoc.dict [(strL "a", .num 1)]].get ⟨i, h⟩).isText :=
  ⟨by decide,
    (c4_shape_preservation (fun _ => some (.obj [])) (fun _ => strL "out")
      flattenValue {}).2.2.2.1
      [PyDoc.text (strL "in"), PyDoc.dict [(strL "a", .num 1)]]
      (Output.multiple [OutDoc.text (strL "out"), OutDoc.native (.obj [(strL "a", .num 1)])])
      (by decide) (by decide)⟩

/-- C7 counterexample: a list input whose first two elements are bare
numbers — invalid per the claim — does not fail: the runner treats the
text-free list as a single root-level Array document and succeeds,
matching `tests.py` `test_root_level_array`. -/
theorem c7_counterexample :
    runFlatten (fun _ => none) (fun _ => [])
      {} (.many [.pyOther (.num 1), .pyOther (.num 2),
                 .dict [(strL "nested", .str (strL "value"))]]) =
      .ok (.single (.native (.obj
        [(strL "0", .num 1), (strL "1", .num 2),
         (strL "2.nested", .str (strL "value"))]))) := by decide

/-- C7 (amended): a list mixing a Text element with any non-document
element fails the whole call with an input-type error; within a batch of
documents a Text element that fails to decode aborts the whole call with
no partial result; but a list with no Text element and at least one
non-document element is not an error — the runner treats it as one
root-level Array document. -/
theorem c7_batch_error_policy
    (parse : Str → Option JsonValue) (render : JsonValue → Str)
    (op : Config → JsonValue → Except JsonToolsError JsonValue) (cfg : Config)
    (ds : List PyDoc) :
    (ds.all PyDoc.isDoc = false → ds.any PyDoc.isText = true →
      runOp parse render op cfg (.many ds) = .error .invalidInputType) ∧
    ((∃ s, PyDoc.text s ∈ ds ∧ parse s = none) →
      ∀ out, runOp parse render op cfg (.many ds) ≠ .ok out) ∧
    (ds.all (fun d => !d.isText) = true → ds.all PyDoc.isDoc = false →
      runOp parse render op cfg (.many ds) =
        (op cfg (.arr (ds.map PyDoc.toTree))).map (fun r => .single (.native r))) := by
  refine ⟨?_, ?_, ?_⟩
  · intro hdoc htext
    have hnot : ¬ds.all (fun d => !d.isText) = true := by
      intro hall
      obtain ⟨d, hd, hdt⟩ := List.any_eq_true.mp htext
      have := List.all_eq_true.mp hall d hd
      rw [hdt] at this
      exact Bool.noConfusion this
    rw [runOp, if_neg (by simp [hdoc]), if_neg hnot]
  · rintro ⟨s, hs, hps⟩ out
    rw [runOp]
    by_cases hdoc : ds.all PyDoc.isDoc = true
    · rw [if_pos hdoc]
      intro hok
      cases hmap : mapE (processDoc parse render op cfg) ds with
      | error e => rw [hmap] at hok; exact Except.noConfusion hok
      | ok os =>
        refine mapE_ne_ok_of_fail hs ?_ os hmap
        intro b hb
        rw [processDoc, hps] at hb
        exact Except.noConfusion hb
    · rw [if_neg hdoc]
      have hnot : ¬ds.all (fun d => !d.isText) = true := by
        intro hall
        have := List.all_eq_true.mp hall (PyDoc.text s) hs
        exact Bool.noConfusion this
      rw [if_neg hnot]
      exact fun hok => Except.noConfusion hok
  · intro hnt hdoc
    rw [runOp, if_neg (by simp [hdoc]), if_pos hnt]

/-- C7 witness: concrete instantiation of the amended policy — the list
`['{"valid"...}' (text), 123 (number)]` mixes Text with a non-document
and errors, and a batch `[text-bad-json]` cannot succeed. -/
theorem c7_witness :
    (([PyDoc.text (strL "a"), PyDoc.pyOther (.num 123)].all PyDoc.isDoc) = false ∧
     ([PyDoc.text (strL "a"), PyDoc.pyOther (.num 123)].any PyDoc.isText) = true ∧
     runOp (fun _ => none) (fun _ => []) flattenValue {}
       (.many [PyDoc.text (strL "a"), PyDoc.pyOther (.num 123)]) =
       .error .invalidInputType) ∧
    ((∃ s, PyDoc.text s ∈ [PyDoc.text (strL "bad")] ∧
        (fun (_ : Str) => (none : Option JsonValue)) s = none) ∧
      ∀ out, runOp (fun _ => none) (fun _ => []) flattenValue {}
        (.many [PyDoc.text (strL "bad")]) ≠ .ok out) :=
  ⟨⟨by decide, by decide,
    (c7_batch_error_policy (fun _ => none) (fun _ => []) flattenValue {}
      [PyDoc.text (strL "a"), PyDoc.pyOther (.num 123)]).1 (by decide) (by decide)⟩,
   ⟨⟨strL "bad", by decide, rfl⟩,
    (c7_batch_error_policy (fun _ => none) (fun _ => []) flattenValue {}
      [PyDoc.text (strL "bad")]).2.1 ⟨strL "bad", by decide, rfl⟩⟩⟩

theorem c1_batch_aux {c : Char} (hc : c.isDigit = false)
    (parse : Str → Option JsonValue) (render : JsonValue → Str) :
    ∀ ts : List (List (Str × JsonValue)),
      (∀ kvs ∈ ts, goodTree c (.obj kvs) = true) →
      mapE (processDoc parse render flattenValue (plainCfg c)) (ts.map PyDoc.dict) =
        .ok (ts.map (fun kvs => OutDoc.native (.obj
          ((leavesOf (JsonValue.obj kvs)).map (fun e => (joinChar c e.1, e.2)))))) ∧
      mapE (processDoc parse render unflattenValue (plainCfg c))
          ((ts.map (fun kvs =>
            (leavesOf (JsonValue.obj kvs)).map (fun e => (joinChar c e.1, e.2)))).map PyDoc.dict) =
        .ok (ts.map (fun kvs => OutDoc.native (.obj kvs)))
  | [], _ => ⟨rfl, rfl⟩
  | kvs :: rest, hgood => by
    have hg := hgood kvs (List.mem_cons_self _ _)
    have ih := c1_batch_aux hc parse render rest
      (fun k hk => hgood k (List.mem_cons_of_mem _ hk))
    constructor
    · rw [List.map_cons, mapE]
      have hpd : processDoc parse render flattenValue (plainCfg c) (.dict kvs) =
          .ok (OutDoc.native (.obj
            ((leavesOf (JsonValue.obj kvs)).map (fun e => (joinChar c e.1, e.2))))) := by
        rw [processDoc, flattenValue_plain hc hg (Or.inl ⟨kvs, rfl⟩)]
        rfl
      rw [hpd]
      show (do
        let bs ← mapE (processDoc parse render flattenValue (plainCfg c)) (rest.map PyDoc.dict)
        Except.ok (OutDoc.native (.obj
          ((leavesOf (JsonValue.obj kvs)).map
            (fun e : List Str × JsonValue => (joinChar c e.1, e.2)))) :: bs)) = _
      rw [ih.1]
      rfl
    · rw [List.map_cons, List.map_cons, mapE]
      have hpd : processDoc parse render unflattenValue (plainCfg c)
          (.dict ((leavesOf (JsonValue.obj kvs)).map (fun e => (joinChar c e.1, e.2)))) =
          .ok (OutDoc.native (.obj kvs)) := by
        rw [processDoc, unflattenValue_plain hc hg (Or.inl ⟨kvs, rfl⟩)]
        rfl
      rw [hpd]
      show (do
        let bs ← mapE (processDoc parse render unflattenValue (plainCfg c))
          ((rest.map (fun kvs =>
            (leavesOf (JsonValue.obj kvs)).map
              (fun e : List Str × JsonValue => (joinChar c e.1, e.2)))).map PyDoc.dict)
        Except.ok (OutDoc.native (.obj kvs) :: bs)) = _
      rw [ih.2]
      rfl

/-- C1 counterexample: the round trip fails on concrete trees satisfying
the claim's stated hypotheses (no empty-key collision, no key or string
value containing the configured separator, plain configuration):
an object whose key is the canonical index `"0"` comes back as an Array;
an object holding an empty object comes back empty; a key containing a
dot round-trips wrongly under separator `"_"`; the self-overlapping
separator `"aa"` mangles keys that do not contain it; and the digit
separator `"1"` breaks a two-element array, erroring. -/
theorem c1_counterexample :
    ((flattenValue {} (.obj [(strL "0", .str (strL "x"))])).bind (unflattenValue {}) =
        .ok (.arr [.str (strL "x")]) ∧
      JsonValue.arr [.str (strL "x")] ≠ .obj [(strL "0", .str (strL "x"))]) ∧
    ((flattenValue {} (.obj [(strL "a", .obj [])])).bind (unflattenValue {}) =
        .ok (.obj []) ∧ JsonValue.obj [] ≠ .obj [(strL "a", .obj [])]) ∧
    ((flattenValue { separator := strL "_" } (.obj [(strL "a.b", .num 1)])).bind
        (unflattenValue { separator := strL "_" }) =
        .ok (.obj [(strL "a", .obj [(strL "b", .num 1)])]) ∧
      JsonValue.obj [(strL "a", .obj [(strL "b", .num 1)])] ≠ .obj [(strL "a.b", .num 1)]) ∧
    ((flattenValue { separator := strL "aa" }
        (.obj [(strL "a", .obj [(strL "b", .num 1)])])).bind
        (unflattenValue { separator := strL "aa" }) =
        .ok (.obj [(strL "", .obj [(strL "ab", .num 1)])]) ∧
      JsonValue.obj [(strL "", .obj [(strL "ab", .num 1)])] ≠
        .obj [(strL "a", .obj [(strL "b", .num 1)])]) ∧
    ((flattenValue { separator := strL "1" }
        (.obj [(strL "k", .arr [.str (strL "a"), .str (strL "b")])])).bind
        (unflattenValue { separator := strL "1" }) = .error .structuralConflict) := by
  refine ⟨⟨by decide, by decide⟩, ⟨by decide, by decide⟩, ⟨by decide, by decide⟩,
    ⟨by decide, by decide⟩, by decide⟩

/-- C1 (amended): for a single-character separator that is not a decimal
digit, and any tree whose object keys are nonempty, pairwise distinct, not
canonical decimal indices and free of both the separator and the
path-joining dot, and whose containers are all nonempty, unflattening the
flattening under the plain configuration (no filtering, no matchers,
lowercasing off) returns the original tree; and a batch of such Native
documents is restored elementwise through the runner. -/
theorem c1_roundtrip (c : Char) (hc : c.isDigit = false) :
    (∀ t : JsonValue, goodTree c t = true →
      (flattenValue (plainCfg c) t).bind (unflattenValue (plainCfg c)) = .ok t) ∧
    (∀ ts : List (List (Str × JsonValue)),
      (∀ kvs ∈ ts, goodTree c (.obj kvs) = true) →
      ∀ (parse : Str → Option JsonValue) (render : JsonValue → Str),
      ∃ fs : List (List (Str × JsonValue)),
        runFlatten parse render (plainCfg c) (.many (ts.map PyDoc.dict)) =
          .ok (.multiple (fs.map (fun es => OutDoc.native (.obj es)))) ∧
        runUnflatten parse render (plainCfg c) (.many (fs.map PyDoc.dict)) =
          .ok (.multiple (ts.map (fun kvs => OutDoc.native (.obj kvs))))) := by
  constructor
  · intro t hg
    exact roundtrip_plain hc hg
  · intro ts hgood parse render
    refine ⟨ts.map (fun kvs =>
      (leavesOf (JsonValue.obj kvs)).map (fun e => (joinChar c e.1, e.2))), ?_, ?_⟩
    · have hall : (ts.map PyDoc.dict).all PyDoc.isDoc = true := by
        rw [List.all_eq_true]
        intro d hd
        obtain ⟨kvs, _, rfl⟩ := List.mem_map.mp hd
        rfl
      show runOp parse render flattenValue (plainCfg c) (.many (ts.map PyDoc.dict)) = _
      rw [runOp, if_pos hall, (c1_batch_aux hc parse render ts hgood).1]
      rw [List.map_map]
      rfl
    · have hall : ((ts.map (fun kvs =>
          (leavesOf (JsonValue.obj kvs)).map (fun e => (joinChar c e.1, e.2)))).map
            PyDoc.dict).all PyDoc.isDoc = true := by
        rw [List.all_eq_true]
        intro d hd
        obtain ⟨kvs, _, rfl⟩ := List.mem_map.mp hd
        rfl
      show runOp parse render unflattenValue (plainCfg c)
        (.many ((ts.map (fun kvs =>
          (leavesOf (JsonValue.obj kvs)).map (fun e => (joinChar c e.1, e.2)))).map
            PyDoc.dict)) = _
      rw [runOp, if_pos hall, (c1_batch_aux hc parse render ts hgood).2]
      rfl

/-- C1 witness: the round trip restores a concrete nested tree with an
object, an array and all four leaf kinds, under the default separator,
and restores a concrete two-document batch elementwise. -/
theorem c1_witness :
    (('.' : Char).isDigit = false ∧
      goodTree '.' (.obj [(strL "user", .obj
        [(strL "name", .str (strL "John")),
         (strL "emails", .arr [.str (strL "a@b.c"), .str (strL "d@e.f")]),
         (strL "flags", .obj [(strL "active", .bool true), (strL "age", .num 30)])])]) = true ∧
      (flattenValue (plainCfg '.') (.obj [(strL "user", .obj
        [(strL "name", .str (strL "John")),
         (strL "emails", .arr [.str (strL "a@b.c"), .str (strL "d@e.f")]),
         (strL "flags", .obj [(strL "active", .bool true), (strL "age", .num 30)])])])).bind
        (unflattenValue (plainCfg '.')) =
        .ok (.obj [(strL "user", .obj
          [(strL "name", .str (strL "John")),
           (strL "emails", .arr [.str (strL "a@b.c"), .str (strL "d@e.f")]),
           (strL "flags", .obj [(strL "active", .bool true), (strL "age", .num 30)])])])) ∧
    (∃ fs : List (List (Str × JsonValue)),
      runFlatten (fun _ => none) (fun _ => []) (plainCfg '.')
        (.many ([[(strL "a", .obj [(strL "b", .num 1)])],
                 [(strL "c", .arr [.num 1, .num 2])]].map PyDoc.dict)) =
        .ok (.multiple (fs.map (fun es => OutDoc.native (.obj es)))) ∧
      runUnflatten (fun _ => none) (fun _ => []) (plainCfg '.')
        (.many (fs.map PyDoc.dict)) =
        .ok (.multiple ([[(strL "a", .obj [(strL "b", .num 1)])],
                 [(strL "c", .arr [.num 1, .num 2])]].map
          (fun kvs => OutDoc.native (.obj kvs))))) :=
  ⟨⟨by decide, by decide,
    (c1_roundtrip '.' (by decide)).1 _ (by decide)⟩,
   (c1_roundtrip '.' (by decide)).2
     [[(strL "a", .obj [(strL "b", .num 1)])], [(strL "c", .arr [.num 1, .num 2])]]
     (by decide) (fun _ => none) (fun _ => [])⟩

/-! General unfolding of the flatten pipeline under compiled matchers. -/

theorem flattenValue_obj (cfg : Config) {kms vms : List CompiledMatcher}
    (h1 : compileMatchers cfg.keyMatchers = .ok kms)
    (h2 : compileMatchers cfg.valueMatchers = .ok vms)
    (kvs : List (Str × JsonValue)) :
    flattenValue cfg (.obj kvs) = .ok (.obj (dedupeEntries
      ((flattenWalk cfg (.obj kvs) []).map
        (fun e => (flattenKeyTransform cfg kms e.1, valueTransform vms e.2))))) := by
  have e1 : flattenValue cfg (.obj kvs) =
      (compileMatchers cfg.keyMatchers).bind (fun kms2 =>
        (compileMatchers cfg.valueMatchers).bind (fun vms2 =>
          Except.ok (.obj (dedupeEntries
            ((flattenWalk cfg (.obj kvs) []).map
              (fun e => (flattenKeyTransform cfg kms2 e.1, valueTransform vms2 e.2))))))) := rfl
  rw [e1, h1, h2]
  rfl

theorem flattenValue_key_compile_error (cfg : Config) {err : JsonToolsError}
    (h1 : compileMatchers cfg.keyMatchers = .error err) :
    ∀ t, flattenValue cfg t = .error err := by
  intro t
  cases t with
  | null =>
    have e1 : flattenValue cfg .null =
        (compileMatchers cfg.keyMatchers).bind (fun _ =>
          (compileMatchers cfg.valueMatchers).bind (fun _ => Except.ok .null)) := rfl
    rw [e1, h1]
    rfl
  | bool b =>
    have e1 : flattenValue cfg (.bool b) =
        (compileMatchers cfg.keyMatchers).bind (fun _ =>
          (compileMatchers cfg.valueMatchers).bind (fun _ => Except.ok (.bool b))) := rfl
    rw [e1, h1]
    rfl
  | num n =>
    have e1 : flattenValue cfg (.num n) =
        (compileMatchers cfg.keyMatchers).bind (fun _ =>
          (compileMatchers cfg.valueMatchers).bind (fun _ => Except.ok (.num n))) := rfl
    rw [e1, h1]
    rfl
  | str s =>
    have e1 : flattenValue cfg (.str s) =
        (compileMatchers cfg.keyMatchers).bind (fun _ =>
          (compileMatchers cfg.valueMatchers).bind (fun _ => Except.ok (.str s))) := rfl
    rw [e1, h1]
    rfl
  | arr xs =>
    have e1 : flattenValue cfg (.arr xs) =
        (compileMatchers cfg.keyMatchers).bind (fun kms2 =>
          (compileMatchers cfg.valueMatchers).bind (fun vms2 =>
            Except.ok (.obj (dedupeEntries
              ((flattenWalk cfg (.arr xs) []).map
                (fun e => (flattenKeyTransform cfg kms2 e.1, valueTransform vms2 e.2))))))) := rfl
    rw [e1, h1]
    rfl
  | obj kvs =>
    have e1 : flattenValue cfg (.obj kvs) =
        (compileMatchers cfg.keyMatchers).bind (fun kms2 =>
          (compileMatchers cfg.valueMatchers).bind (fun vms2 =>
            Except.ok (.obj (dedupeEntries
              ((flattenWalk cfg (.obj kvs) []).map
                (fun e => (flattenKeyTransform cfg kms2 e.1, valueTransform vms2 e.2))))))) := rfl
    rw [e1, h1]
    rfl

theorem flattenValue_value_compile_error (cfg : Config) {kms : List CompiledMatcher}
    {err : JsonToolsError}
    (h1 : compileMatchers cfg.keyMatchers = .ok kms)
    (h2 : compileMatchers cfg.valueMatchers = .error err) :
    ∀ t, flattenValue cfg t = .error err := by
  intro t
  cases t with
  | null =>
    have e1 : flattenValue cfg .null =
        (compileMatchers cfg.keyMatchers).bind (fun _ =>
          (compileMatchers cfg.valueMatchers).bind (fun _ => Except.ok .null)) := rfl
    rw [e1, h1, h2]
    rfl
  | bool b =>
    have e1 : flattenValue cfg (.bool b) =
        (compileMatchers cfg.keyMatchers).bind (fun _ =>
          (compileMatchers cfg.valueMatchers).bind (fun _ => Except.ok (.bool b))) := rfl
    rw [e1, h1, h2]
    rfl
  | num n =>
    have e1 : flattenValue cfg (.num n) =
        (compileMatchers cfg.keyMatchers).bind (fun _ =>
          (compileMatchers cfg.valueMatchers).bind (fun _ => Except.ok (.num n))) := rfl
    rw [e1, h1, h2]
    rfl
  | str s =>
    have e1 : flattenValue cfg (.str s) =
        (compileMatchers cfg.keyMatchers).bind (fun _ =>
          (compileMatchers cfg.valueMatchers).bind (fun _ => Except.ok (.str s))) := rfl
    rw [e1, h1, h2]
    rfl
  | arr xs =>
    have e1 : flattenValue cfg (.arr xs) =
        (compileMatchers cfg.keyMatchers).bind (fun kms2 =>
          (compileMatchers cfg.valueMatchers).bind (fun vms2 =>
            Except.ok (.obj (dedupeEntries
              ((flattenWalk cfg (.arr xs) []).map
                (fun e => (flattenKeyTransform cfg kms2 e.1, valueTransform vms2 e.2))))))) := rfl
    rw [e1, h1, h2]
    rfl
  | obj kvs =>
    have e1 : flattenValue cfg (.obj kvs) =
        (compileMatchers cfg.keyMatchers).bind (fun kms2 =>
          (compileMatchers cfg.valueMatchers).bind (fun vms2 =>
            Except.ok (.obj (dedupeEntries
              ((flattenWalk cfg (.obj kvs) []).map
                (fun e => (flattenKeyTransform cfg kms2 e.1, valueTransform vms2 e.2))))))) := rfl
    rw [e1, h1, h2]
    rfl

/-- C2 counterexample: in the unflatten direction the key matchers do not
see the key before case folding.  With lowercasing enabled and the literal
matcher `prefix_` → `user_` — which does not match the original-case key
`PREFIX_NAME` — the engine still rewrites it, because the key is lowercased
first (matching `test_unflattener.py` `test_chained_configuration`);
the claim's order, matchers before case folding, leaves `prefix_name`. -/
theorem c2_counterexample :
    (unflattenValue
        { separator := strL "_", lowercaseKeys := true,
          keyMatchers := [(strL "prefix_", strL "user_")],
          valueMatchers := [(strL "@company.org", strL "@example.com")] }
        (.obj [(strL "PREFIX_NAME", .str (strL "john@company.org")),
               (strL "PREFIX_AGE", .num 30)]) =
      .ok (.obj [(strL "user", .obj
        [(strL "name", .str (strL "john@example.com")), (strL "age", .num 30)])])) ∧
    (unflattenKeyTransformClaimOrder
        { separator := strL "_", lowercaseKeys := true,
          keyMatchers := [(strL "prefix_", strL "user_")],
          valueMatchers := [(strL "@company.org", strL "@example.com")] }
        [.lit (strL "prefix_") (strL "user_")] (strL "PREFIX_NAME") =
      strL "prefix_name") ∧
    (unflattenKeyTransform
        { separator := strL "_", lowercaseKeys := true,
          keyMatchers := [(strL "prefix_", strL "user_")],
          valueMatchers := [(strL "@company.org", strL "@example.com")] }
        [.lit (strL "prefix_") (strL "user_")] (strL "PREFIX_NAME") =
      strL "user_name") ∧
    strL "prefix_name" ≠ strL "user_name" := by
  refine ⟨by decide, by decide, by decide, by decide⟩

/-- C2 (amended): in the flatten direction lowercasing is applied strictly
after all key matchers, so matcher patterns match the original case —
flattening `{"User_Name": ..., "Admin_Role": ..., "Temp_Data": ...}` with
key matcher `regex:^(User|Admin)_` → `""` and lowercasing yields keys
`name`, `role`, `temp_data`; in the unflatten direction the order is
reversed: the raw key is lowercased first and the key matchers are applied
to the lowercased key. -/
theorem c2_matcher_case_order :
    (flattenValue
        { keyMatchers := [(strL "regex:^(User|Admin)_", strL "")], lowercaseKeys := true }
        (.obj [(strL "User_Name", .str (strL "John")),
               (strL "Admin_Role", .str (strL "super")),
               (strL "Temp_Data", .str (strL "test"))]) =
      .ok (.obj [(strL "name", .str (strL "John")),
                 (strL "role", .str (strL "super")),
                 (strL "temp_data", .str (strL "test"))])) ∧
    (∀ (cfg : Config) (kms : List CompiledMatcher) (k : Str), cfg.lowercaseKeys = true →
      flattenKeyTransform cfg kms k = applySeparator cfg.separator (lowerStr (applyAll kms k)) ∧
      unflattenKeyTransform cfg kms k = applyAll kms (lowerStr k)) ∧
    (unflattenValue
        { separator := strL "_", lowercaseKeys := true,
          keyMatchers := [(strL "prefix_", strL "user_")] }
        (.obj [(strL "PREFIX_NAME", .str (strL "j"))]) =
      .ok (.obj [(strL "user", .obj [(strL "name", .str (strL "j"))])])) := by
  refine ⟨by decide, ?_, by decide⟩
  intro cfg kms k h
  rw [flattenKeyTransform, if_pos h, unflattenKeyTransform, if_pos h]
  exact ⟨rfl, rfl⟩

/-- C2 witness: the order equations instantiated at a concrete
configuration with lowercasing enabled. -/
theorem c2_witness :
    (({ lowercaseKeys := true } : Config).lowercaseKeys = true) ∧
    (flattenKeyTransform { lowercaseKeys := true } [] (strL "AB") =
        applySeparator (({ lowercaseKeys := true } : Config)).separator
          (lowerStr (applyAll [] (strL "AB"))) ∧
      unflattenKeyTransform { lowercaseKeys := true } [] (strL "AB") =
        applyAll [] (lowerStr (strL "AB"))) :=
  ⟨rfl, (c2_matcher_case_order).2.1 { lowercaseKeys := true } [] (strL "AB") rfl⟩

/-- C3 counterexample: a key matcher written against the default `"."`
separator rewrites keys even though the configured separator is `"_"` and
no produced key contains a dot.  With separator `"_"` and literal matcher
`context.` → `""`, the engine turns `context_request_id` into `request_id`
(matching `tests.py` `test_log_processing`); under the claim's reading —
matchers applied to keys already joined by the configured separator — the
key would stay `context_request_id`. -/
theorem c3_counterexample :
    (flattenValue { separator := strL "_", keyMatchers := [(strL "context.", strL "")] }
        (.obj [(strL "level", .str (strL "INFO")),
               (strL "context", .obj [(strL "request_id", .str (strL "req_001"))])]) =
      .ok (.obj [(strL "level", .str (strL "INFO")),
                 (strL "request_id", .str (strL "req_001"))])) ∧
    (flattenValueClaimOrder
        { separator := strL "_", keyMatchers := [(strL "context.", strL "")] }
        (.obj [(strL "level", .str (strL "INFO")),
               (strL "context", .obj [(strL "request_id", .str (strL "req_001"))])]) =
      .ok (.obj [(strL "level", .str (strL "INFO")),
                 (strL "context_request_id", .str (strL "req_001"))])) ∧
    (flattenValue { separator := strL "_", keyMatchers := [(strL "context.", strL "")] }
        (.obj [(strL "level", .str (strL "INFO")),
               (strL "context", .obj [(strL "request_id", .str (strL "req_001"))])]) ≠
      flattenValueClaimOrder
        { separator := strL "_", keyMatchers := [(strL "context.", strL "")] }
        (.obj [(strL "level", .str (strL "INFO")),
               (strL "context", .obj [(strL "request_id", .str (strL "req_001"))])])) := by
  refine ⟨by decide, by decide, by decide⟩

/-- C3 (amended): each key matcher is applied to the complete flattened
key whose path segments are joined by the default `"."`; the configured
separator replaces `"."` only afterwards, strictly after key replacement
and case normalization — so `"."`-written patterns take effect regardless
of the configured separator.  The first conjunct is the exact output
equation (`flattenKeyTransform` applies the matchers to the dot-joined
`sKey` and substitutes the separator last); the others replay the
repository's log-processing and data-transformation-pipeline scenarios. -/
theorem c3_key_matchers_on_dot_joined :
    (∀ (cfg : Config) (kms vms : List CompiledMatcher) (kvs : List (Str × JsonValue)),
      compileMatchers cfg.keyMatchers = .ok kms →
      compileMatchers cfg.valueMatchers = .ok vms →
      flattenValue cfg (.obj kvs) = .ok (.obj (dedupeEntries
        (((leavesOf (JsonValue.obj kvs)).filter (fun e => !dropLeaf cfg e.2)).map
          (fun e => (flattenKeyTransform cfg kms (sKey [] e.1), valueTransform vms e.2)))))) ∧
    (flattenValue { separator := strL "_", keyMatchers := [(strL "context.", strL "")] }
        (.obj [(strL "level", .str (strL "INFO")),
               (strL "context", .obj [(strL "request_id", .str (strL "req_001"))])]) =
      .ok (.obj [(strL "level", .str (strL "INFO")),
                 (strL "request_id", .str (strL "req_001"))])) ∧
    (flattenValue
        { separator := strL "_", lowercaseKeys := true,
          removeEmptyStringValues := true, removeNullValues := true,
          keyMatchers := [(strL "regex:^(customer_data|account_info)\\.", strL "")] }
        (.obj [(strL "customer_data", .obj
          [(strL "Customer_ID", .str (strL "CUST_12345")),
           (strL "Contact_Info", .obj
             [(strL "Primary_Email", .str (strL "c@x.com")),
              (strL "Secondary_Email", .str [])])])]) =
      .ok (.obj [(strL "customer_id", .str (strL "CUST_12345")),
                 (strL "contact_info_primary_email", .str (strL "c@x.com"))])) := by
  refine ⟨?_, by decide, by decide⟩
  intro cfg kms vms kvs h1 h2
  rw [flattenValue_obj cfg h1 h2 kvs, flattenWalk_eq, List.map_map]
  rfl

/-- C3 witness: the output equation instantiated at a concrete
configuration (separator `"_"`, one literal key matcher) and document. -/
theorem c3_witness :
    (compileMatchers (({ separator := strL "_",
                         keyMatchers := [(strL "context.", strL "")] } : Config)).keyMatchers =
      .ok [.lit (strL "context.") (strL "")]) ∧
    (compileMatchers (({ separator := strL "_",
                         keyMatchers := [(strL "context.", strL "")] } : Config)).valueMatchers =
      .ok []) ∧
    (flattenValue { separator := strL "_", keyMatchers := [(strL "context.", strL "")] }
        (.obj [(strL "context", .obj [(strL "request_id", .str (strL "req_001"))])]) =
      .ok (.obj (dedupeEntries
        (((leavesOf (JsonValue.obj
            [(strL "context", .obj [(strL "request_id", .str (strL "req_001"))])])).filter
          (fun e => !dropLeaf { separator := strL "_",
                                keyMatchers := [(strL "context.", strL "")] } e.2)).map
          (fun e => (flattenKeyTransform { separator := strL "_",
                                           keyMatchers := [(strL "context.", strL "")] }
            [.lit (strL "context.") (strL "")] (sKey [] e.1),
            valueTransform [] e.2)))))) :=
  ⟨by decide, by decide,
    (c3_key_matchers_on_dot_joined).1
      { separator := strL "_", keyMatchers := [(strL "context.", strL "")] }
      [.lit (strL "context.") (strL "")] []
      [(strL "context", .obj [(strL "request_id", .str (strL "req_001"))])]
      (by decide) (by decide)⟩

/-- C5: with the default separator, no matchers and no lowercasing, the
flatten output is exactly the leaf list filtered by the string/null rules
(containers, empty or emptied, never contribute entries of their own);
with all four flags on, a leaf is dropped precisely when it is Null or the
empty string; Number, Bool and nonempty-String leaves are never dropped
under any flag combination; and the spec's concrete example holds. -/
theorem c5_filter_pipeline :
    (∀ (b1 b2 b3 b4 : Bool) (kvs : List (Str × JsonValue)),
      flattenValue { removeEmptyStringValues := b1, removeNullValues := b2,
                     removeEmptyDict := b3, removeEmptyList := b4 } (.obj kvs) =
        .ok (.obj (dedupeEntries
          (((leavesOf (JsonValue.obj kvs)).filter
              (fun e => !dropLeaf { removeEmptyStringValues := b1, removeNullValues := b2,
                                    removeEmptyDict := b3, removeEmptyList := b4 } e.2)).map
            (fun e => (sKey [] e.1, e.2)))))) ∧
    (∀ v : JsonValue,
      dropLeaf { removeEmptyStringValues := true, removeNullValues := true,
                 removeEmptyDict := true, removeEmptyList := true } v = true ↔
        (v = .null ∨ v = .str [])) ∧
    (∀ (cfg : Config) (n : Int) (b : Bool) (s : Str),
      dropLeaf cfg (.num n) = false ∧ dropLeaf cfg (.bool b) = false ∧
      (s ≠ [] → dropLeaf cfg (.str s) = false)) ∧
    (flattenValue { removeEmptyStringValues := true, removeNullValues := true,
                    removeEmptyDict := true, removeEmptyList := true }
        (.obj [(strL "u", .obj
          [(strL "name", .str (strL "J")), (strL "email", .str []),
           (strL "age", .null), (strL "tags", .arr [])])]) =
      .ok (.obj [(strL "u.name", .str (strL "J"))])) := by
  refine ⟨?_, ?_, ?_, by decide⟩
  · intro b1 b2 b3 b4 kvs
    rw [flattenValue_obj
        { removeEmptyStringValues := b1, removeNullValues := b2,
          removeEmptyDict := b3, removeEmptyList := b4 }
        (show _ = Except.ok [] from rfl) (show _ = Except.ok [] from rfl) kvs,
      flattenWalk_eq, List.map_map]
    refine congrArg (fun l => Except.ok (JsonValue.obj (dedupeEntries l))) ?_
    apply List.map_congr_left
    intro e _
    simp only [Function.comp]
    rw [valueTransform_nil]
    rfl
  · intro v
    cases v <;> simp [dropLeaf, List.isEmpty_iff]
  · intro cfg n b s
    refine ⟨rfl, rfl, ?_⟩
    intro hs
    rw [dropLeaf]
    have : s.isEmpty = false := by
      cases s with
      | nil => exact absurd rfl hs
      | cons a l => rfl
    rw [this]
    exact Bool.and_false _

/-- C5 witness: the exact-output conjunct and the leaf-immunity conjunct
instantiated concretely: flags all on, a document holding a number and a
nonempty string, both retained. -/
theorem c5_witness :
    (flattenValue { removeEmptyStringValues := true, removeNullValues := true,
                    removeEmptyDict := true, removeEmptyList := true }
        (.obj [(strL "k", .num 7), (strL "s", .str (strL "v")), (strL "z", .null)]) =
      .ok (.obj (dedupeEntries
        (((leavesOf (JsonValue.obj
            [(strL "k", .num 7), (strL "s", .str (strL "v")), (strL "z", .null)])).filter
            (fun e => !dropLeaf { removeEmptyStringValues := true, removeNullValues := true,
                                  removeEmptyDict := true, removeEmptyList := true } e.2)).map
          (fun e => (sKey [] e.1, e.2)))))) ∧
    (strL "v" ≠ [] ∧
      dropLeaf { removeEmptyStringValues := true, removeNullValues := true,
                 removeEmptyDict := true, removeEmptyList := true }
        (.str (strL "v")) = false) :=
  ⟨(c5_filter_pipeline).1 true true true true
      [(strL "k", .num 7), (strL "s", .str (strL "v")), (strL "z", .null)],
   ⟨by decide,
    ((c5_filter_pipeline).2.2.1
      { removeEmptyStringValues := true, removeNullValues := true,
        removeEmptyDict := true, removeEmptyList := true } 0 false (strL "v")).2.2
      (by decide)⟩⟩

theorem isDigit_iff_le (x : Char) : x.isDigit = true ↔ ('0' ≤ x ∧ x ≤ '9') := by
  simp [Char.isDigit, decide_eq_true_iff]
  exact Iff.rfl

theorem char_eq_of_toNat_48 (c : Char) (h : c.toNat = 48) : c = '0' := by
  have := congrArg Char.ofNat h
  rwa [Char.ofNat_toNat] at this

theorem isCanonicalIndex_iff (s : Str) :
    isCanonicalIndex s = true ↔
      (s = ['0'] ∨ ∃ c cs, s = c :: cs ∧ '1' ≤ c ∧ c ≤ '9' ∧ ∀ x ∈ cs, '0' ≤ x ∧ x ≤ '9') := by
  cases s with
  | nil =>
    simp only [isCanonicalIndex]
    constructor
    · intro h; exact absurd h (by decide)
    · rintro (h | ⟨c, cs, h, _⟩) <;> exact List.noConfusion h
  | cons c cs =>
    by_cases hc : c = '0'
    · subst hc
      have hred : isCanonicalIndex ('0' :: cs) = cs.isEmpty := by simp [isCanonicalIndex]
      rw [hred, List.isEmpty_iff]
      constructor
      · rintro rfl; exact Or.inl rfl
      · rintro (h | ⟨c', cs', heq, h1, _, _⟩)
        · exact ((List.cons.injEq _ _ _ _ ▸ h) : ('0':Char) = '0' ∧ cs = []).2
        · exfalso
          have hce : c' = '0' := ((List.cons.injEq _ _ _ _ ▸ heq) : '0' = c' ∧ cs = cs').1.symm
          rw [hce] at h1
          exact absurd h1 (by decide)
    · have hred : isCanonicalIndex (c :: cs) = (c.isDigit && cs.all (fun x => x.isDigit)) := by
        simp [isCanonicalIndex, hc]
      rw [hred, Bool.and_eq_true, List.all_eq_true]
      constructor
      · rintro ⟨hd, hall⟩
        refine Or.inr ⟨c, cs, rfl, ?_, ((isDigit_iff_le c).mp hd).2, ?_⟩
        · have h0 : '0' ≤ c := ((isDigit_iff_le c).mp hd).1
          have h48 : 48 ≤ c.toNat := h0
          have hne : c.toNat ≠ 48 := fun h => hc (char_eq_of_toNat_48 c h)
          show 49 ≤ c.toNat
          omega
        · intro x hx
          exact (isDigit_iff_le x).mp (by simpa using hall x hx)
      · rintro (h | ⟨c', cs', heq, h1, h9, hall⟩)
        · exact absurd ((List.cons.injEq _ _ _ _ ▸ h) : c = '0' ∧ cs = []).1 hc
        · obtain ⟨hcc, hcs⟩ := ((List.cons.injEq _ _ _ _ ▸ heq) : c = c' ∧ cs = cs')
          subst hcc; subst hcs
          refine ⟨(isDigit_iff_le c).mpr ⟨?_, h9⟩, ?_⟩
          · show 48 ≤ c.toNat
            have : 49 ≤ c.toNat := h1
            omega
          · intro x hx
            simpa using (isDigit_iff_le x).mpr (hall x hx)

/-- C6: the unflattener's index test agrees exactly with the regex
written in the spec (a segment is an array index iff it matches
0 or [1-9][0-9]*); an index segment builds or extends an Array at its
position (from nothing: index 0 starts a fresh Array, a positive index
with nothing built yet is an invalid sparse index) and conflicts with an
Object already there; a non-index segment builds an Object and conflicts
with an Array already there; keys are split on the configured separator
with no escaping before insertion; and unflattening the spec example
yields the array with elements ordered by index. -/
theorem c6_index_segments :
    (∀ s : Str, isCanonicalIndex s = true ↔
      (s = ['0'] ∨ ∃ c cs, s = c :: cs ∧ '1' ≤ c ∧ c ≤ '9' ∧ ∀ x ∈ cs, '0' ≤ x ∧ x ≤ '9')) ∧
    (∀ (seg : Str) (p : List Str) (leaf : JsonValue), isCanonicalIndex seg = true →
      (insertAt none (seg :: p) leaf =
        if strToNat seg = 0 then (insertAt none p leaf).map (fun ch => JsonValue.arr [ch])
        else .error .invalidIndex) ∧
      (∀ kvs, insertAt (some (.obj kvs)) (seg :: p) leaf = .error .structuralConflict)) ∧
    (∀ (seg : Str) (p : List Str) (leaf : JsonValue), isCanonicalIndex seg = false →
      (insertAt none (seg :: p) leaf =
        (insertAt none p leaf).map (fun ch => JsonValue.obj [(seg, ch)])) ∧
      (∀ xs, insertAt (some (.arr xs)) (seg :: p) leaf = .error .structuralConflict)) ∧
    (∀ (sep : Str) (entries : List (Str × JsonValue)) (r : JsonValue),
      foldInsert none (entries.map (fun e => (splitOnStr sep e.1, e.2))) = .ok (some r) →
      unflattenValue { separator := sep } (.obj entries) = .ok r) ∧
    (unflattenValue {}
        (.obj [(strL "items.0", .str (strL "x")), (strL "items.1", .str (strL "y"))]) =
      .ok (.obj [(strL "items", .arr [.str (strL "x"), .str (strL "y")])])) := by
  refine ⟨isCanonicalIndex_iff, ?_, ?_, ?_, by decide⟩
  · intro seg p leaf h
    refine ⟨?_, ?_⟩
    · simp only [insertAt, h, if_true]
      by_cases hi : strToNat seg = 0
      · simp only [if_pos hi]
        cases hres : insertAt none p leaf <;> rfl
      · simp only [if_neg hi]
    · intro kvs
      simp only [insertAt, h, if_true]
  · intro seg p leaf h
    refine ⟨insertAt_none_obj h p leaf, ?_⟩
    intro xs
    simp only [insertAt, h, Bool.false_eq_true, if_false]
  · intro sep entries r hr
    have hmap : entries.map
        (fun e => (splitOnStr ({ separator := sep } : Config).separator
          (unflattenKeyTransform { separator := sep } [] e.1), valueTransform [] e.2)) =
        entries.map (fun e => (splitOnStr sep e.1, e.2)) := by
      apply List.map_congr_left
      intro e _
      rw [valueTransform_nil]
      rfl
    show (do
      match ← foldInsert none (entries.map
          (fun e => (splitOnStr ({ separator := sep } : Config).separator
            (unflattenKeyTransform { separator := sep } [] e.1), valueTransform [] e.2))) with
      | some t => Except.ok t
      | none => Except.ok (.obj [])) = Except.ok r
    rw [hmap, hr]
    rfl

/-- C6 witness: the segment rules and the split-then-insert equation
instantiated concretely: segment 0 starts an array, segment k starts an
object, and one flat entry items.0 rebuilds a nested array. -/
theorem c6_witness :
    (isCanonicalIndex (strL "0") = true ∧
      insertAt none [strL "0"] (.str (strL "x")) =
        (if strToNat (strL "0") = 0
         then (insertAt none ([] : List Str) (.str (strL "x"))).map
           (fun ch => JsonValue.arr [ch])
         else .error .invalidIndex)) ∧
    (isCanonicalIndex (strL "k") = false ∧
      insertAt none [strL "k"] (.str (strL "x")) =
        (insertAt none ([] : List Str) (.str (strL "x"))).map
          (fun ch => JsonValue.obj [(strL "k", ch)])) ∧
    (foldInsert none ([(strL "items.0", JsonValue.str (strL "x"))].map
        (fun e => (splitOnStr (strL ".") e.1, e.2))) =
      .ok (some (.obj [(strL "items", .arr [.str (strL "x")])])) ∧
     unflattenValue { separator := strL "." } (.obj [(strL "items.0", .str (strL "x"))]) =
      .ok (.obj [(strL "items", .arr [.str (strL "x")])])) :=
  ⟨⟨by decide, ((c6_index_segments).2.1 (strL "0") [] (.str (strL "x")) (by decide)).1⟩,
   ⟨by decide, ((c6_index_segments).2.2.1 (strL "k") [] (.str (strL "x")) (by decide)).1⟩,
   ⟨by decide, (c6_index_segments).2.2.2.1 (strL ".") [(strL "items.0", .str (strL "x"))]
      (.obj [(strL "items", .arr [.str (strL "x")])]) (by decide)⟩⟩

/-- C8: value replacement touches only String leaves: the value transform
is the identity on every non-String value under every matcher list; any
non-String value in a flatten output is carried unchanged from a leaf of
the walked input; and the spec example holds: flattening with value
matcher true to false leaves the boolean at a.active equal to true. -/
theorem c8_value_replacement_scope :
    (∀ (vms : List CompiledMatcher) (v : JsonValue), (∀ s : Str, v ≠ .str s) →
      valueTransform vms v = v) ∧
    (∀ (cfg : Config) (kms vms : List CompiledMatcher)
        (kvs out : List (Str × JsonValue)),
      compileMatchers cfg.keyMatchers = .ok kms →
      compileMatchers cfg.valueMatchers = .ok vms →
      flattenValue cfg (.obj kvs) = .ok (.obj out) →
      ∀ e ∈ out, (∀ s : Str, e.2 ≠ .str s) →
        ∃ p, (p, e.2) ∈ flattenWalk cfg (.obj kvs) []) ∧
    (flattenValue { valueMatchers := [(strL "true", strL "false")] }
        (.obj [(strL "a", .obj [(strL "active", .bool true)])]) =
      .ok (.obj [(strL "a.active", .bool true)])) := by
  refine ⟨?_, ?_, by decide⟩
  · intro vms v hv
    cases v with
    | str s => exact absurd rfl (hv s)
    | null => rfl
    | bool b => rfl
    | num n => rfl
    | arr xs => rfl
    | obj kvs => rfl
  · intro cfg kms vms kvs out h1 h2 h3 e he hns
    rw [flattenValue_obj cfg h1 h2 kvs] at h3
    have h4 : JsonValue.obj (dedupeEntries
        ((flattenWalk cfg (.obj kvs) []).map
          (fun e => (flattenKeyTransform cfg kms e.1, valueTransform vms e.2)))) =
        JsonValue.obj out := Except.ok.inj h3
    have h5 : dedupeEntries
        ((flattenWalk cfg (.obj kvs) []).map
          (fun e => (flattenKeyTransform cfg kms e.1, valueTransform vms e.2))) = out :=
      JsonValue.obj.inj h4
    rw [← h5] at he
    obtain ⟨a, ha, hae⟩ := List.mem_map.mp (mem_dedupeEntries he)
    have hsnd : e.2 = valueTransform vms a.2 := congrArg Prod.snd hae.symm
    have hvv : valueTransform vms a.2 = a.2 := by
      cases hA : a.2 with
      | str s =>
        exact absurd
          (show e.2 = JsonValue.str (applyAll vms s) from
            hsnd.trans (congrArg (valueTransform vms) hA))
          (hns (applyAll vms s))
      | null => rfl
      | bool b => rfl
      | num n => rfl
      | arr xs => rfl
      | obj kvs2 => rfl
    refine ⟨a.1, ?_⟩
    rw [show e.2 = a.2 from hsnd.trans hvv, Prod.mk.eta]
    exact ha

/-- C8 witness: the identity of the value transform on a boolean under an
empty matcher list, and the origin of the untouched boolean in the
concrete flatten of the spec example. -/
theorem c8_witness :
    ((∀ s : Str, (JsonValue.bool true) ≠ .str s) ∧
      valueTransform [] (JsonValue.bool true) = JsonValue.bool true) ∧
    (flattenValue { valueMatchers := [(strL "true", strL "false")] }
        (.obj [(strL "a", .obj [(strL "active", .bool true)])]) =
       .ok (.obj [(strL "a.active", .bool true)]) ∧
     ∃ p, (p, JsonValue.bool true) ∈
       flattenWalk { valueMatchers := [(strL "true", strL "false")] }
         (.obj [(strL "a", .obj [(strL "active", .bool true)])]) []) :=
  ⟨⟨fun s h => JsonValue.noConfusion h,
    (c8_value_replacement_scope).1 [] (.bool true) (fun s h => JsonValue.noConfusion h)⟩,
   ⟨by decide,
    (c8_value_replacement_scope).2.1 { valueMatchers := [(strL "true", strL "false")] }
      [] [.lit (strL "true") (strL "false")]
      [(strL "a", .obj [(strL "active", .bool true)])]
      [(strL "a.active", .bool true)]
      (by decide) (by decide) (by decide)
      (strL "a.active", .bool true) (by decide)
      (fun s h => JsonValue.noConfusion h)⟩⟩

theorem unflattenValue_key_compile_error (cfg : Config) {err : JsonToolsError}
    (h1 : compileMatchers cfg.keyMatchers = .error err) :
    ∀ t, unflattenValue cfg t = .error err := by
  intro t
  cases t with
  | null =>
    have e1 : unflattenValue cfg .null =
        (compileMatchers cfg.keyMatchers).bind (fun _ =>
          (compileMatchers cfg.valueMatchers).bind (fun _ => Except.ok .null)) := rfl
    rw [e1, h1]
    rfl
  | bool b =>
    have e1 : unflattenValue cfg (.bool b) =
        (compileMatchers cfg.keyMatchers).bind (fun _ =>
          (compileMatchers cfg.valueMatchers).bind (fun _ => Except.ok (.bool b))) := rfl
    rw [e1, h1]
    rfl
  | num n =>
    have e1 : unflattenValue cfg (.num n) =
        (compileMatchers cfg.keyMatchers).bind (fun _ =>
          (compileMatchers cfg.valueMatchers).bind (fun _ => Except.ok (.num n))) := rfl
    rw [e1, h1]
    rfl
  | str s =>
    have e1 : unflattenValue cfg (.str s) =
        (compileMatchers cfg.keyMatchers).bind (fun _ =>
          (compileMatchers cfg.valueMatchers).bind (fun _ => Except.ok (.str s))) := rfl
    rw [e1, h1]
    rfl
  | arr xs =>
    have e1 : unflattenValue cfg (.arr xs) =
        (compileMatchers cfg.keyMatchers).bind (fun _ =>
          (compileMatchers cfg.valueMatchers).bind (fun _ => Except.ok (.arr xs))) := rfl
    rw [e1, h1]
    rfl
  | obj entries =>
    have e1 : unflattenValue cfg (.obj entries) =
        (compileMatchers cfg.keyMatchers).bind (fun kms =>
          (compileMatchers cfg.valueMatchers).bind (fun vms =>
            (foldInsert none (entries.map
              (fun e => (splitOnStr cfg.separator (unflattenKeyTransform cfg kms e.1),
                         valueTransform vms e.2)))).bind
              (fun r => match r with
                | some t2 => Except.ok t2
                | none => Except.ok (JsonValue.obj [])))) := rfl
    rw [e1, h1]
    rfl

theorem unflattenValue_value_compile_error (cfg : Config) {kms : List CompiledMatcher}
    {err : JsonToolsError}
    (h1 : compileMatchers cfg.keyMatchers = .ok kms)
    (h2 : compileMatchers cfg.valueMatchers = .error err) :
    ∀ t, unflattenValue cfg t = .error err := by
  intro t
  cases t with
  | null =>
    have e1 : unflattenValue cfg .null =
        (compileMatchers cfg.keyMatchers).bind (fun _ =>
          (compileMatchers cfg.valueMatchers).bind (fun _ => Except.ok .null)) := rfl
    rw [e1, h1, h2]
    rfl
  | bool b =>
    have e1 : unflattenValue cfg (.bool b) =
        (compileMatchers cfg.keyMatchers).bind (fun _ =>
          (compileMatchers cfg.valueMatchers).bind (fun _ => Except.ok (.bool b))) := rfl
    rw [e1, h1, h2]
    rfl
  | num n =>
    have e1 : unflattenValue cfg (.num n) =
        (compileMatchers cfg.keyMatchers).bind (fun _ =>
          (compileMatchers cfg.valueMatchers).bind (fun _ => Except.ok (.num n))) := rfl
    rw [e1, h1, h2]
    rfl
  | str s =>
    have e1 : unflattenValue cfg (.str s) =
        (compileMatchers cfg.keyMatchers).bind (fun _ =>
          (compileMatchers cfg.valueMatchers).bind (fun _ => Except.ok (.str s))) := rfl
    rw [e1, h1, h2]
    rfl
  | arr xs =>
    have e1 : unflattenValue cfg (.arr xs) =
        (compileMatchers cfg.keyMatchers).bind (fun _ =>
          (compileMatchers cfg.valueMatchers).bind (fun _ => Except.ok (.arr xs))) := rfl
    rw [e1, h1, h2]
    rfl
  | obj entries =>
    have e1 : unflattenValue cfg (.obj entries) =
        (compileMatchers cfg.keyMatchers).bind (fun kms2 =>
          (compileMatchers cfg.valueMatchers).bind (fun vms =>
            (foldInsert none (entries.map
              (fun e => (splitOnStr cfg.separator (unflattenKeyTransform cfg kms2 e.1),
                         valueTransform vms e.2)))).bind
              (fun r => match r with
                | some t2 => Except.ok t2
                | none => Except.ok (JsonValue.obj [])))) := rfl
    rw [e1, h1, h2]
    rfl

theorem compileMatchers_append_error :
    ∀ (ms : List MatcherSpec) (l : List CompiledMatcher) (m : MatcherSpec)
      (err : JsonToolsError),
      compileMatchers ms = .ok l → compileMatcher m = .error err →
      compileMatchers (ms ++ [m]) = .error err
  | [], l, m, err, _, hm => by
    show (compileMatcher m).bind
      (fun c => (compileMatchers []).bind (fun cs => Except.ok (c :: cs))) = .error err
    rw [hm]
    rfl
  | m0 :: ms, l, m, err, hms, hm => by
    cases h0 : compileMatcher m0 with
    | error e0 =>
      exfalso
      have hbad : compileMatchers (m0 :: ms) = .error e0 := by
        show (compileMatcher m0).bind
          (fun c => (compileMatchers ms).bind (fun cs => Except.ok (c :: cs))) = .error e0
        rw [h0]
        rfl
      rw [hbad] at hms
      exact Except.noConfusion hms
    | ok c0 =>
      cases h1 : compileMatchers ms with
      | error e1 =>
        exfalso
        have hbad : compileMatchers (m0 :: ms) = .error e1 := by
          show (compileMatcher m0).bind
            (fun c => (compileMatchers ms).bind (fun cs => Except.ok (c :: cs))) = .error e1
          rw [h0]
          show (compileMatchers ms).bind (fun cs => Except.ok (c0 :: cs)) = .error e1
          rw [h1]
          rfl
        rw [hbad] at hms
        exact Except.noConfusion hms
      | ok l1 =>
        have ih := compileMatchers_append_error ms l1 m err h1 hm
        show (compileMatcher m0).bind
          (fun c => (compileMatchers (ms ++ [m])).bind (fun cs => Except.ok (c :: cs))) =
            .error err
        rw [h0]
        show (compileMatchers (ms ++ [m])).bind (fun cs => Except.ok (c0 :: cs)) = .error err
        rw [ih]
        rfl

/-- C9: registering a replacement on the builder never fails and only
appends the raw pattern to the configuration snapshot; a pattern is
rejected exactly when it carries the regex marker and its body fails to
parse, and the only error compilation can produce is a pattern error
naming the offending pattern; and with such a matcher registered on
either the key or the value side, every later flatten and every later
unflatten call fails with that pattern error at use time. -/
theorem c9_lazy_pattern_error :
    (∀ (cfg : Config) (pat rep : Str),
      (cfg.keyReplacement pat rep).keyMatchers = cfg.keyMatchers ++ [(pat, rep)] ∧
      (cfg.valueReplacement pat rep).valueMatchers = cfg.valueMatchers ++ [(pat, rep)]) ∧
    (∀ m : MatcherSpec, regexMarker.isPrefixOf m.1 = true →
      parseRegex (m.1.drop 6) = none →
      compileMatcher m = .error (.patternError m.1)) ∧
    (∀ (m : MatcherSpec) (err : JsonToolsError), compileMatcher m = .error err →
      err = .patternError m.1) ∧
    (∀ (cfg : Config) (pat rep : Str) (l : List CompiledMatcher),
      compileMatchers cfg.keyMatchers = .ok l →
      compileMatcher (pat, rep) = .error (.patternError pat) →
      (∀ t, flattenValue (cfg.keyReplacement pat rep) t = .error (.patternError pat)) ∧
      (∀ t, unflattenValue (cfg.keyReplacement pat rep) t = .error (.patternError pat))) ∧
    (∀ (cfg : Config) (pat rep : Str) (lk lv : List CompiledMatcher),
      compileMatchers cfg.keyMatchers = .ok lk →
      compileMatchers cfg.valueMatchers = .ok lv →
      compileMatcher (pat, rep) = .error (.patternError pat) →
      (∀ t, flattenValue (cfg.valueReplacement pat rep) t = .error (.patternError pat)) ∧
      (∀ t, unflattenValue (cfg.valueReplacement pat rep) t = .error (.patternError pat))) := by
  refine ⟨fun cfg pat rep => ⟨rfl, rfl⟩, ?_, ?_, ?_, ?_⟩
  · intro m h1 h2
    simp only [compileMatcher, h1, if_true, h2]
  · intro m err h
    simp only [compileMatcher] at h
    by_cases hp : regexMarker.isPrefixOf m.1 = true
    · rw [if_pos hp] at h
      cases hq : parseRegex (m.1.drop 6) with
      | some es => rw [hq] at h; exact Except.noConfusion h
      | none => rw [hq] at h; exact (Except.error.inj h).symm
    · rw [if_neg hp] at h
      exact Except.noConfusion h
  · intro cfg pat rep l hok herr
    have hkey : compileMatchers (cfg.keyReplacement pat rep).keyMatchers =
        .error (.patternError pat) := by
      show compileMatchers (cfg.keyMatchers ++ [(pat, rep)]) = .error (.patternError pat)
      exact compileMatchers_append_error cfg.keyMatchers l (pat, rep) _ hok herr
    exact ⟨flattenValue_key_compile_error _ hkey, unflattenValue_key_compile_error _ hkey⟩
  · intro cfg pat rep lk lv hok hokv herr
    have hok2 : compileMatchers (cfg.valueReplacement pat rep).keyMatchers = .ok lk := hok
    have hval : compileMatchers (cfg.valueReplacement pat rep).valueMatchers =
        .error (.patternError pat) := by
      show compileMatchers (cfg.valueMatchers ++ [(pat, rep)]) = .error (.patternError pat)
      exact compileMatchers_append_error cfg.valueMatchers lv (pat, rep) _ hokv herr
    exact ⟨flattenValue_value_compile_error _ hok2 hval,
           unflattenValue_value_compile_error _ hok2 hval⟩

/-- C9 witness: the unclosed-bracket pattern compiles to a pattern error,
and once registered on the key side of an otherwise default
configuration, both flatten and unflatten fail with exactly that error on
a concrete document. -/
theorem c9_witness :
    (compileMatchers (({} : Config)).keyMatchers = .ok [] ∧
     compileMatcher (strL "regex:[invalid", ([] : Str)) =
       .error (.patternError (strL "regex:[invalid")) ∧
     flattenValue (Config.keyReplacement {} (strL "regex:[invalid") [])
         (.obj [(strL "a", .num 1)]) =
       .error (.patternError (strL "regex:[invalid")) ∧
     unflattenValue (Config.keyReplacement {} (strL "regex:[invalid") [])
         (.obj [(strL "a", .num 1)]) =
       .error (.patternError (strL "regex:[invalid"))) :=
  ⟨by decide, by decide,
   ((c9_lazy_pattern_error).2.2.2.1 {} (strL "regex:[invalid") [] []
      (by decide) (by decide)).1 (.obj [(strL "a", .num 1)]),
   ((c9_lazy_pattern_error).2.2.2.1 {} (strL "regex:[invalid") [] []
      (by decide) (by decide)).2 (.obj [(strL "a", .num 1)])⟩

/-- C10: flatten is not injective: the object with canonical index keys
0 and 1 and the two-element array flatten to the identical flat mapping
under the default configuration, while the two inputs differ; and the
object form does not round-trip: unflattening its flatten output returns
the array form. -/
theorem c10_flatten_not_injective :
    (flattenValue {}
        (.obj [(strL "0", .str (strL "zero")), (strL "1", .str (strL "one"))]) =
      flattenValue {} (.arr [.str (strL "zero"), .str (strL "one")])) ∧
    (JsonValue.obj [(strL "0", .str (strL "zero")), (strL "1", .str (strL "one"))] ≠
      JsonValue.arr [.str (strL "zero"), .str (strL "one")]) ∧
    ((flattenValue {}
        (.obj [(strL "0", .str (strL "zero")), (strL "1", .str (strL "one"))])).bind
          (unflattenValue {}) =
      .ok (.arr [.str (strL "zero"), .str (strL "one")])) :=
  ⟨by decide, by decide, by decide⟩
